import Mathlib

/-!
Verification development for the usage-monitor pipeline
(`packages/usage/src/claude_tui_usage/monitor.py`) and its self-healing
layer (`scripts/self_heal.py`).

The Python source is shallowly embedded: pure functions become Lean
functions over `List Char` / `String`, `datetime` values become a record
of calendar fields compared through a seconds-since-epoch view, regular
expressions are translated into explicit scanners that mirror the
backtracking behaviour of the concrete patterns appearing in the source,
and fallible code returns `Option`.  Effectful loops (terminal capture,
fix verification) are embedded as functions over the list of outcomes of
their attempts.  Scanners that advance past a matched chunk take a fuel
argument (initialised to the input length) so that every definition is
structurally recursive and kernel-computable.

Python specifics that the embedding fixes once and for all:
* `str.lower` / case-insensitive regex flags act ASCII-wise (all texts
  handled by the monitor are ASCII);
* Python `\s` is modelled by the six ASCII whitespace characters;
* `str.isprintable` is modelled ASCII-wise (control characters are the
  only non-printable characters that occur);
* float comparisons of the form `total_seconds()/3600 <= bound` are
  modelled exactly on integers (`seconds <= bound*3600`), which agrees
  with the float computation on all second-resolution inputs involved.
-/

/-- ASCII whitespace, the characters matched by Python's `\s` (and the
ones stripped by `str.strip`) on the texts this program handles. -/
def isPySpace (c : Char) : Bool :=
  c = ' ' || c = '\t' || c = '\n' || c = '\r' || c = '\x0b' || c = '\x0c'

/-- ASCII-faithful model of `str.isprintable`: control characters
(below `0x20`) and DEL are not printable, everything else is. -/
def pyIsPrintable (c : Char) : Bool :=
  decide (0x20 ≤ c.toNat) && c.toNat ≠ 0x7f

/-- Lower-case a list of characters (`str.lower` on ASCII text). -/
def lowerL (l : List Char) : List Char := l.map Char.toLower

/-- Python's substring test `needle in hay` (contiguous substring). -/
def hasSub (needle : List Char) : List Char → Bool
  | [] => needle.isEmpty
  | c :: cs => needle.isPrefixOf (c :: cs) || hasSub needle cs

/-- Numeric value of a run of decimal digits, as produced by `int(...)`. -/
def digitsToNat (l : List Char) : Nat :=
  l.foldl (fun acc c => 10 * acc + (c.toNat - 48)) 0

/-- `text.split("\n")`: split a character list at newlines, keeping
empty pieces. -/
def splitLines : List Char → List (List Char)
  | [] => [[]]
  | c :: cs =>
    match splitLines cs, c with
    | r, '\n' => [] :: r
    | [], _ => [[c]]
    | h :: t, c' => (c' :: h) :: t

/-- `str.strip()`: drop leading and trailing whitespace. -/
def pyStrip (l : List Char) : List Char :=
  ((l.dropWhile isPySpace).reverse.dropWhile isPySpace).reverse

/-- Fuelled scanner behind `pyReplace`.  Mirrors Python's
`str.replace(p, r)`: scan left to right, replace each (non-overlapping)
occurrence of `p` by `r`.  The fuel only bounds the number of scan
steps; with fuel at least the input length the scan runs to the end. -/
def pyReplaceGo (p r : List Char) : Nat → List Char → List Char
  | _, [] => []
  | 0, l => l
  | fuel + 1, c :: cs =>
    if p ≠ [] && p.isPrefixOf (c :: cs) then
      r ++ pyReplaceGo p r fuel (cs.drop (p.length - 1))
    else
      c :: pyReplaceGo p r fuel cs

/-- Python's `source.replace(p, r)` (replace every occurrence). -/
def pyReplace (p r s : List Char) : List Char :=
  pyReplaceGo p r s.length s

-- Calendar arithmetic for the `datetime` model.  Days are counted from
-- 0000-03-01 using the standard civil-calendar conversion.

/-- Serial day number of a proleptic-Gregorian date (days since
0000-03-01); standard civil-from-date conversion. -/
def daysFromCivil (y m d : Nat) : Nat :=
  let yy := if m ≤ 2 then y - 1 else y
  let era := yy / 400
  let yoe := yy % 400
  let mp := if 2 < m then m - 3 else m + 9
  let doy := (153 * mp + 2) / 5 + d - 1
  let doe := yoe * 365 + yoe / 4 - yoe / 100 + doy
  era * 146097 + doe

/-- Inverse of `daysFromCivil`: the date of a serial day number. -/
def civilFromDays (z : Nat) : Nat × Nat × Nat :=
  let era := z / 146097
  let doe := z % 146097
  let yoe := (doe - doe / 1460 + doe / 36524 - doe / 146096) / 365
  let y := yoe + era * 400
  let doy := doe - (365 * yoe + yoe / 4 - yoe / 100)
  let mp := (5 * doy + 2) / 153
  let d := doy - (153 * mp + 2) / 5 + 1
  let m := if mp < 10 then mp + 3 else mp - 9
  (if m ≤ 2 then y + 1 else y, m, d)

/-- Whether `y` is a Gregorian leap year. -/
def isLeapYear (y : Nat) : Bool :=
  y % 4 = 0 && (y % 100 ≠ 0 || y % 400 = 0)

/-- Number of days in month `m` of year `y` (used by the `datetime`
constructor's validity check). -/
def daysInMonth (y m : Nat) : Nat :=
  if m = 2 then (if isLeapYear y then 29 else 28)
  else if m = 4 || m = 6 || m = 9 || m = 11 then 30
  else 31

/-- Model of a Python `datetime` at second resolution (microseconds play
no role in any code path embedded here). -/
structure PyDateTime where
  year : Nat
  month : Nat
  day : Nat
  hour : Nat
  minute : Nat
  second : Nat
deriving DecidableEq, Repr

/-- Seconds-since-epoch view of a `PyDateTime`; `datetime` comparisons
and `timedelta` differences are computed through it. -/
def toSec (dt : PyDateTime) : Int :=
  ((daysFromCivil dt.year dt.month dt.day : Nat) : Int) * 86400
    + (dt.hour : Int) * 3600 + (dt.minute : Int) * 60 + (dt.second : Int)

/-- `dt + timedelta(days=k)`: advance the calendar date, keep the time. -/
def addDays (dt : PyDateTime) (k : Nat) : PyDateTime :=
  match civilFromDays (daysFromCivil dt.year dt.month dt.day + k) with
  | (y, m, d) => { dt with year := y, month := m, day := d }

/-- `datetime.combine(now.date(), dt.time())`. -/
def combineDate (now dt : PyDateTime) : PyDateTime :=
  ⟨now.year, now.month, now.day, dt.hour, dt.minute, dt.second⟩

example : daysFromCivil 2026 1 10 + 1 = daysFromCivil 2026 1 11 := by decide
example : civilFromDays (daysFromCivil 2026 1 31 + 1) = (2026, 2, 1) := by decide
example : pyReplace "ab".toList "x".toList "zabab".toList = "zxx".toList := by decide
example : hasSub "cd".toList "abcde".toList = true := by decide
example : splitLines "a\nb".toList = ["a".toList, "b".toList] := by decide

-- `strip_ansi` (monitor.py): four sequential regex substitutions, each
-- embedded as a left-to-right scanner with the same match semantics.

/-- First `strip_ansi` pass, `re.sub(r"\x1B\[(\d+)C", n*" ")`: a cursor
right-move code becomes that many literal spaces. -/
def stripAnsiCursorGo : Nat → List Char → List Char
  | _, [] => []
  | 0, l => l
  | fuel + 1, c :: cs =>
    if c = '\x1b' then
      match cs with
      | '[' :: rest =>
        let run := rest.takeWhile Char.isDigit
        if run.isEmpty then c :: stripAnsiCursorGo fuel cs
        else
          match rest.drop run.length with
          | 'C' :: rest2 =>
            List.replicate (digitsToNat run) ' ' ++ stripAnsiCursorGo fuel rest2
          | _ => c :: stripAnsiCursorGo fuel cs
      | _ => c :: stripAnsiCursorGo fuel cs
    else c :: stripAnsiCursorGo fuel cs

/-- Single-character escape finals `[@-Z\\-_]` of the second
`strip_ansi` pattern. -/
def isEscSingle (c : Char) : Bool :=
  (0x40 ≤ c.toNat && c.toNat ≤ 0x5a) || (0x5c ≤ c.toNat && c.toNat ≤ 0x5f)

/-- CSI parameter bytes `[0-?]`. -/
def isCsiParam (c : Char) : Bool := 0x30 ≤ c.toNat && c.toNat ≤ 0x3f

/-- CSI intermediate bytes (space through 0x2F). -/
def isCsiInter (c : Char) : Bool := 0x20 ≤ c.toNat && c.toNat ≤ 0x2f

/-- CSI final bytes `[@-~]`. -/
def isCsiFinal (c : Char) : Bool := 0x40 ≤ c.toNat && c.toNat ≤ 0x7e

/-- Second `strip_ansi` pass: remove an ESC followed by a single
escape final, or a full CSI sequence (params, intermediates, final).
The three CSI byte classes are disjoint, so the greedy stars match the
maximal runs with no backtracking. -/
def stripAnsiEscGo : Nat → List Char → List Char
  | _, [] => []
  | 0, l => l
  | fuel + 1, c :: cs =>
    if c = '\x1b' then
      match cs with
      | [] => [c]
      | d :: ds =>
        if isEscSingle d then stripAnsiEscGo fuel ds
        else if d = '[' then
          let ps := ds.dropWhile isCsiParam
          let qs := ps.dropWhile isCsiInter
          match qs with
          | f :: rest =>
            if isCsiFinal f then stripAnsiEscGo fuel rest
            else c :: stripAnsiEscGo fuel cs
          | [] => c :: stripAnsiEscGo fuel cs
        else c :: stripAnsiEscGo fuel cs
    else c :: stripAnsiEscGo fuel cs

/-- Index of the last occurrence of `ESC \` (the ST terminator) in a
list, if any. -/
def lastIdxEscBS : List Char → Option Nat
  | [] => none
  | c :: cs =>
    match lastIdxEscBS cs with
    | some i => some (i + 1)
    | none => if c = '\x1b' && cs.head? = some '\\' then some 0 else none

/-- Consume an OSC body per `[^\x07]*(?:\x07|\x1B\\)`: greedily up to
the first BEL, or (no BEL anywhere) up to the last `ESC \`. -/
def oscConsume (rest : List Char) : Option (List Char) :=
  let pre := rest.takeWhile (fun c => !(c = '\x07'))
  match rest.drop pre.length with
  | '\x07' :: tail => some tail
  | _ => (lastIdxEscBS rest).map (fun i => rest.drop (i + 2))

/-- Third `strip_ansi` pass,
`re.sub(r"\x1B\][^\x07]*(?:\x07|\x1B\\)", "")` (OSC sequences). -/
def stripAnsiOscGo : Nat → List Char → List Char
  | _, [] => []
  | 0, l => l
  | fuel + 1, c :: cs =>
    if c = '\x1b' then
      match cs with
      | ']' :: rest =>
        match oscConsume rest with
        | some rest2 => stripAnsiOscGo fuel rest2
        | none => c :: stripAnsiOscGo fuel cs
      | _ => c :: stripAnsiOscGo fuel cs
    else c :: stripAnsiOscGo fuel cs

/-- Fourth `strip_ansi` pass, `re.sub(r"\][\d;]*[^\n]*", "")`: both
star classes are maximal, so every `]` deletes through the end of its
line (exclusive of the newline). -/
def stripBracketLineGo : Nat → List Char → List Char
  | _, [] => []
  | 0, l => l
  | fuel + 1, c :: cs =>
    if c = ']' then stripBracketLineGo fuel (cs.dropWhile (fun c2 => !(c2 = '\n')))
    else c :: stripBracketLineGo fuel cs

/-- `strip_ansi(text)`: remove ANSI escape sequences, preserving
spacing (monitor.py).  The four substitutions run in source order. -/
def strip_ansi (text : List Char) : List Char :=
  let t1 := stripAnsiCursorGo text.length text
  let t2 := stripAnsiEscGo t1.length t1
  let t3 := stripAnsiOscGo t2.length t2
  stripBracketLineGo t3.length t3

-- `clean_time_string` (monitor.py).

/-- First `clean_time_string` pass, `re.sub(r"\s*\(.*?\)", "", text)`:
drop a parenthesised group (laziest closing paren on the same line)
together with the whitespace run before it. -/
def removeParensGo : Nat → List Char → List Char
  | _, [] => []
  | 0, l => l
  | fuel + 1, c :: cs =>
    let ws := (c :: cs).takeWhile isPySpace
    match (c :: cs).drop ws.length with
    | '(' :: inner =>
      let body := inner.takeWhile (fun c2 => !(c2 = ')' || c2 = '\n'))
      match inner.drop body.length with
      | ')' :: rest => removeParensGo fuel rest
      | _ => c :: removeParensGo fuel cs
    | _ => c :: removeParensGo fuel cs

/-- `re.sub(r"\s+", " ", text)`: collapse whitespace runs to one
space, via a carried was-in-whitespace flag. -/
def collapseWsGo : Bool → List Char → List Char
  | _, [] => []
  | prevWs, c :: cs =>
    if isPySpace c then
      if prevWs then collapseWsGo true cs else ' ' :: collapseWsGo true cs
    else c :: collapseWsGo false cs

/-- `re.sub(r"(?i)(am|pm)$", upper)`: uppercase a trailing am/pm. -/
def upperAmPm (l : List Char) : List Char :=
  match l.reverse with
  | m :: a :: rest =>
    if m.toLower = 'm' && (a.toLower = 'a' || a.toLower = 'p') then
      rest.reverse ++ [a.toUpper, m.toUpper]
    else l
  | _ => l

/-- `clean_time_string(text)`: normalize a time string for parsing
(monitor.py) — drop parenthesised timezone notes, commas and
non-printable characters, collapse whitespace, uppercase a trailing
am/pm, and strip. -/
def clean_time_string (text : List Char) : List Char :=
  let t1 := removeParensGo text.length text
  let t2 := t1.filter (fun c => !(c = ','))
  let t3 := collapseWsGo false t2
  let t4 := t3.filter pyIsPrintable
  pyStrip (upperAmPm t4)

example : clean_time_string "6:59pm".toList = "6:59PM".toList := by decide
example : clean_time_string " Jan 29, at  6pm (UTC) ".toList = "Jan 29 at 6pm".toList := by
  decide
example : strip_ansi "a\x1b[31mb\x1b[2Cc".toList = "ab  c".toList := by decide


-- Mini `datetime.strptime` for the fixed format lists in monitor.py.
-- Each `%`-directive is embedded with the regex CPython's `_strptime`
-- builds for it (alternatives tried in order, with backtracking);
-- whitespace in a format matches one-or-more whitespace characters,
-- literals and names match case-insensitively, and the whole input
-- must be consumed.

/-- One token of a strptime format string: a literal character,
format whitespace, or one of the directives used by the source's
format lists. -/
inductive FmtTok where
  | lit (c : Char)
  | ws
  | dirI
  | dirM
  | dirP
  | dirB
  | dirD
  | dirY
deriving DecidableEq, Repr

/-- Partially accumulated strptime fields, with CPython's defaults
(year 1900, month 1, day 1). -/
structure StrpAcc where
  year : Nat := 1900
  month : Nat := 1
  day : Nat := 1
  hour12 : Nat := 0
  minute : Nat := 0
  hasP : Bool := false
  isPM : Bool := false
deriving DecidableEq, Repr

/-- `%I` alternatives, in regex order: `1[0-2]|0[1-9]|[1-9]`. -/
def candsHour12 (l : List Char) : List (Nat × List Char) :=
  (match l with
   | '1' :: c :: rest =>
     if c = '0' || c = '1' || c = '2' then [(10 + (c.toNat - 48), rest)] else []
   | _ => []) ++
  (match l with
   | '0' :: c :: rest =>
     if '1' ≤ c && c ≤ '9' then [(c.toNat - 48, rest)] else []
   | _ => []) ++
  (match l with
   | c :: rest => if '1' ≤ c && c ≤ '9' then [(c.toNat - 48, rest)] else []
   | _ => [])

/-- `%M` alternatives, in regex order: `[0-5]\d|\d`. -/
def candsMinute (l : List Char) : List (Nat × List Char) :=
  (match l with
   | a :: b :: rest =>
     if '0' ≤ a && a ≤ '5' && b.isDigit then
       [((a.toNat - 48) * 10 + (b.toNat - 48), rest)]
     else []
   | _ => []) ++
  (match l with
   | a :: rest => if a.isDigit then [(a.toNat - 48, rest)] else []
   | _ => [])

/-- `%d` alternatives, in regex order: `3[01]|[12]\d|0[1-9]|[1-9]`. -/
def candsDay (l : List Char) : List (Nat × List Char) :=
  (match l with
   | '3' :: c :: rest =>
     if c = '0' || c = '1' then [(30 + (c.toNat - 48), rest)] else []
   | _ => []) ++
  (match l with
   | a :: b :: rest =>
     if (a = '1' || a = '2') && b.isDigit then
       [((a.toNat - 48) * 10 + (b.toNat - 48), rest)]
     else []
   | _ => []) ++
  (match l with
   | '0' :: c :: rest =>
     if '1' ≤ c && c ≤ '9' then [(c.toNat - 48, rest)] else []
   | _ => []) ++
  (match l with
   | c :: rest => if '1' ≤ c && c ≤ '9' then [(c.toNat - 48, rest)] else []
   | _ => [])

/-- `%Y`: exactly four digits. -/
def candsYear (l : List Char) : List (Nat × List Char) :=
  match l with
  | a :: b :: c :: d :: rest =>
    if a.isDigit && b.isDigit && c.isDigit && d.isDigit then
      [(digitsToNat [a, b, c, d], rest)]
    else []
  | _ => []

/-- The month-abbreviation names matched (case-insensitively) by `%b`. -/
def MONTH_ABBRS : List (List Char) :=
  ["jan", "feb", "mar", "apr", "may", "jun",
   "jul", "aug", "sep", "oct", "nov", "dec"].map String.toList

/-- `%b`: a month abbreviation, case-insensitively; yields the month
number. -/
def candsMonth (l : List Char) : List (Nat × List Char) :=
  (List.range 12).filterMap (fun i =>
    if (MONTH_ABBRS.getD i []).isPrefixOf (lowerL l) then some (i + 1, l.drop 3)
    else none)

/-- `%p`: `AM|PM`, case-insensitively; yields whether it was PM. -/
def candsAmPm (l : List Char) : List (Bool × List Char) :=
  (if ("am".toList).isPrefixOf (lowerL l) then [(false, l.drop 2)] else []) ++
  (if ("pm".toList).isPrefixOf (lowerL l) then [(true, l.drop 2)] else [])

/-- Format whitespace (`\s+`): remainders after consuming k whitespace
characters, greedily longest first. -/
def candsWsRun (l : List Char) : List (List Char) :=
  let run := l.takeWhile isPySpace
  (List.range run.length).map (fun i => l.drop (run.length - i))

/-- Match a token list against the input with regex backtracking; the
whole input must be consumed (CPython raises `ValueError: unconverted
data remains` otherwise). -/
def runFmt : List FmtTok → List Char → StrpAcc → Option StrpAcc
  | [], l, acc => if l.isEmpty then some acc else none
  | .lit c :: ts, l, acc =>
    match l with
    | d :: rest => if d.toLower = c.toLower then runFmt ts rest acc else none
    | [] => none
  | .ws :: ts, l, acc => (candsWsRun l).findSome? (fun rest => runFmt ts rest acc)
  | .dirI :: ts, l, acc =>
    (candsHour12 l).findSome? (fun x => runFmt ts x.2 { acc with hour12 := x.1 })
  | .dirM :: ts, l, acc =>
    (candsMinute l).findSome? (fun x => runFmt ts x.2 { acc with minute := x.1 })
  | .dirP :: ts, l, acc =>
    (candsAmPm l).findSome? (fun x => runFmt ts x.2 { acc with hasP := true, isPM := x.1 })
  | .dirB :: ts, l, acc =>
    (candsMonth l).findSome? (fun x => runFmt ts x.2 { acc with month := x.1 })
  | .dirD :: ts, l, acc =>
    (candsDay l).findSome? (fun x => runFmt ts x.2 { acc with day := x.1 })
  | .dirY :: ts, l, acc =>
    (candsYear l).findSome? (fun x => runFmt ts x.2 { acc with year := x.1 })

/-- `datetime.strptime(l, fmt)`: match, convert `%I`/`%p` to a 24-hour
value, and validate the date exactly as the `datetime` constructor
does (raising, i.e. `none`, on out-of-range fields such as `Feb 30`). -/
def strptimeWith (fmt : List FmtTok) (l : List Char) : Option PyDateTime :=
  match runFmt fmt l {} with
  | none => none
  | some acc =>
    let hour :=
      if acc.hasP then
        if acc.isPM then (if acc.hour12 = 12 then 12 else acc.hour12 + 12)
        else (if acc.hour12 = 12 then 0 else acc.hour12)
      else acc.hour12
    if 1 ≤ acc.year && 1 ≤ acc.month && acc.month ≤ 12 &&
        1 ≤ acc.day && acc.day ≤ daysInMonth acc.year acc.month then
      some ⟨acc.year, acc.month, acc.day, hour, acc.minute, 0⟩
    else none

/-- `"%I:%M%p"`. -/
def fmt_time_IMp : List FmtTok := [.dirI, .lit ':', .dirM, .dirP]

/-- `"%I%p"`. -/
def fmt_time_Ip : List FmtTok := [.dirI, .dirP]

/-- `TIME_FORMATS` (monitor.py). -/
def TIME_FORMATS : List (List FmtTok) := [fmt_time_IMp, fmt_time_Ip]

/-- `"%b %d at %I:%M%p"`. -/
def fmt_noyear_IMp : List FmtTok :=
  [.dirB, .ws, .dirD, .ws, .lit 'a', .lit 't', .ws, .dirI, .lit ':', .dirM, .dirP]

/-- `"%b %d at %I%p"`. -/
def fmt_noyear_Ip : List FmtTok :=
  [.dirB, .ws, .dirD, .ws, .lit 'a', .lit 't', .ws, .dirI, .dirP]

/-- `DATE_FORMATS_NO_YEAR` (monitor.py). -/
def DATE_FORMATS_NO_YEAR : List (List FmtTok) := [fmt_noyear_IMp, fmt_noyear_Ip]

/-- `"%b %d %Y at %I:%M%p"`. -/
def fmt_year_IMp : List FmtTok :=
  [.dirB, .ws, .dirD, .ws, .dirY, .ws, .lit 'a', .lit 't', .ws,
   .dirI, .lit ':', .dirM, .dirP]

/-- `"%b %d %Y at %I%p"`. -/
def fmt_year_Ip : List FmtTok :=
  [.dirB, .ws, .dirD, .ws, .dirY, .ws, .lit 'a', .lit 't', .ws, .dirI, .dirP]

/-- `DATE_FORMATS_WITH_YEAR` (monitor.py). -/
def DATE_FORMATS_WITH_YEAR : List (List FmtTok) := [fmt_year_IMp, fmt_year_Ip]

example : strptimeWith fmt_time_IMp "6:59PM".toList =
    some ⟨1900, 1, 1, 18, 59, 0⟩ := by decide
example : strptimeWith fmt_time_Ip "11PM".toList =
    some ⟨1900, 1, 1, 23, 0, 0⟩ := by decide
example : strptimeWith fmt_time_Ip "12am".toList =
    some ⟨1900, 1, 1, 0, 0, 0⟩ := by decide
example : strptimeWith fmt_year_Ip "Jan 1 2020 at 5pm".toList =
    some ⟨2020, 1, 1, 17, 0, 0⟩ := by decide
example : strptimeWith fmt_noyear_IMp "Feb 30 at 6:59pm".toList = none := by decide
example : strptimeWith fmt_time_IMp "6:59PM ".toList = none := by decide

-- Percentage extraction (monitor.py): three cascaded strategies.

/-- Attempt `(\d+)%\s*used` (IGNORECASE) at the head of `l`: a maximal
digit run, `%`, optional whitespace, then `used`. -/
def pctUsedAt (l : List Char) : Option Nat :=
  let run := l.takeWhile Char.isDigit
  if run.isEmpty then none
  else
    match l.drop run.length with
    | '%' :: rest =>
      if ("used".toList).isPrefixOf (lowerL (rest.dropWhile isPySpace)) then
        some (digitsToNat run)
      else none
    | _ => none

/-- Leftmost `(\d+)%\s*used` match in `l` (the lazy `.*?` of the
pattern takes the earliest position at which the tail matches). -/
def findPctUsed : List Char → Option Nat
  | [] => none
  | c :: cs =>
    match pctUsedAt (c :: cs) with
    | some v => some v
    | none => findPctUsed cs

/-- Scanner behind `extract_via_regex`: the match starts at the
leftmost case-insensitive occurrence of the section label that is
followed (anywhere later, DOTALL) by a percent-used token. -/
def regexScan (sectionLabel : List Char) : List Char → Option Nat
  | [] => none
  | c :: cs =>
    if (lowerL sectionLabel).isPrefixOf (lowerL (c :: cs)) then
      match findPctUsed ((c :: cs).drop sectionLabel.length) with
      | some v => some v
      | none => regexScan sectionLabel cs
    else regexScan sectionLabel cs

/-- `extract_via_regex(text, sectionLabel)` (monitor.py): regex
`rf"{section}.*?(\d+)%\s*used"` with DOTALL and IGNORECASE. -/
def extract_via_regex (text sectionLabel : List Char) : Option Nat :=
  regexScan sectionLabel text

/-- `re.search(r"(\d+)%", line)`: value of the first digit-run that is
immediately followed by a percent sign. -/
def findPct : List Char → Option Nat
  | [] => none
  | c :: cs =>
    if c.isDigit then
      let run := (c :: cs).takeWhile Char.isDigit
      match (c :: cs).drop run.length with
      | '%' :: _ => some (digitsToNat run)
      | _ => findPct cs
    else findPct cs

/-- The line loop of `extract_via_structure`, carrying the `in_section`
flag: a line containing the section label (re-)enters the section and
is otherwise skipped; inside the section, the line's first `N%` token
is returned when in range, and otherwise a line containing `current`
stops the scan. -/
def structScan (sectionLabel : List Char) : Bool → List (List Char) → Option Nat
  | _, [] => none
  | inSection, line :: rest =>
    if hasSub (lowerL sectionLabel) (lowerL line) then structScan sectionLabel true rest
    else if inSection then
      match findPct line with
      | some v =>
        if 0 ≤ v ∧ v ≤ 100 then some v
        else if hasSub "current".toList (lowerL line) then none
        else structScan sectionLabel true rest
      | none =>
        if hasSub "current".toList (lowerL line) then none
        else structScan sectionLabel true rest
    else structScan sectionLabel false rest

/-- `extract_via_structure(text, sectionLabel)` (monitor.py). -/
def extract_via_structure (text sectionLabel : List Char) : Option Nat :=
  structScan sectionLabel false (splitLines text)

/-- Zero-width split point of `re.split(r"(?=Current\s+)", text,
IGNORECASE)`: the lookahead holds where `current` (case-insensitively)
is followed by at least one whitespace character. -/
def isCurrentBoundary (l : List Char) : Bool :=
  ("current".toList).isPrefixOf (lowerL l) &&
    (match l.drop 7 with
     | c :: _ => isPySpace c
     | [] => false)

/-- Accumulating scanner behind `splitCur`. -/
def splitCurGo (acc : List Char) : List Char → List (List Char)
  | [] => [acc.reverse]
  | c :: cs =>
    if isCurrentBoundary (c :: cs) then acc.reverse :: splitCurGo [c] cs
    else splitCurGo (c :: acc) cs

/-- `re.split(r"(?=Current\s+)", text, IGNORECASE)`: split before each
boundary, keeping a leading empty part when the text starts at one. -/
def splitCur (l : List Char) : List (List Char) := splitCurGo [] l

/-- `re.findall(r"(\d+)%", part)`: all (non-overlapping) digit-run `%`
tokens, left to right. -/
def findAllPctGo : Nat → List Char → List Nat
  | _, [] => []
  | 0, _ => []
  | fuel + 1, c :: cs =>
    if c.isDigit then
      let run := (c :: cs).takeWhile Char.isDigit
      match (c :: cs).drop run.length with
      | '%' :: rest => digitsToNat run :: findAllPctGo fuel rest
      | _ => findAllPctGo fuel cs
    else findAllPctGo fuel cs

/-- All `N%` token values of a part. -/
def findAllPct (l : List Char) : List Nat := findAllPctGo l.length l

/-- The part loop of `extract_via_numbers`: in the first part whose
text contains the section label and that holds an in-range token,
return that token; a label-matching part without one does not stop the
loop. -/
def numbersFromParts (sectionLabel : List Char) : List (List Char) → Option Nat
  | [] => none
  | part :: parts =>
    if hasSub (lowerL sectionLabel) (lowerL part) then
      match (findAllPct part).find? (fun v => decide (0 ≤ v) && decide (v ≤ 100)) with
      | some v => some v
      | none => numbersFromParts sectionLabel parts
    else numbersFromParts sectionLabel parts

/-- `extract_via_numbers(text, sectionLabel)` (monitor.py). -/
def extract_via_numbers (text sectionLabel : List Char) : Option Nat :=
  numbersFromParts sectionLabel (splitCur text)

/-- The strategy loop of `extract_percentage`: accept the first
strategy result that is present and in range. -/
def tryStrategies : List (Option Nat) → Option Nat
  | [] => none
  | r :: rs =>
    match r with
    | some v => if 0 ≤ v ∧ v ≤ 100 then some v else tryStrategies rs
    | none => tryStrategies rs

/-- `extract_percentage(text, sectionLabel)` (monitor.py): cascade of
regex, structure and numbers strategies, in that order. -/
def extract_percentage (text sectionLabel : List Char) : Option Nat :=
  tryStrategies
    [extract_via_regex text sectionLabel,
     extract_via_structure text sectionLabel,
     extract_via_numbers text sectionLabel]

-- Reset-phrase extraction (monitor.py):
-- `rf"{section}.*?Rese[ts]*\s+(.+?)(?:\s{2,}|\n|$)"`, DOTALL+IGNORECASE.

/-- The capture terminator `(?:\s{2,}|\n|$)` tested at a position. -/
def resetTermAt : List Char → Bool
  | [] => true
  | '\n' :: _ => true
  | a :: b :: _ => isPySpace a && isPySpace b
  | _ => false

/-- Lazy `(.+?)`: the shortest nonempty prefix after which the
terminator matches (with DOTALL the dot also crosses newlines, and the
end-of-string always terminates). -/
def captureMinGo (acc : List Char) : List Char → List Char
  | [] => acc.reverse
  | c :: cs =>
    if acc ≠ [] && resetTermAt (c :: cs) then acc.reverse
    else captureMinGo (c :: acc) cs

/-- Attempt `Rese[ts]*\s+(.+?)(?:\s{2,}|\n|$)` at the head of `l`,
yielding the raw capture: after `Rese` and a maximal (case-insensitive)
`t`/`s` run there must be whitespace; the greedy `\s+` then leaves the
shortest viable capture, backtracking one whitespace character when the
run extends to the end of the string. -/
def resetMatchAt (l : List Char) : Option (List Char) :=
  if ("rese".toList).isPrefixOf (lowerL l) then
    let afterTS := (l.drop 4).dropWhile (fun c => c.toLower = 't' || c.toLower = 's')
    let w := afterTS.takeWhile isPySpace
    let rest := afterTS.drop w.length
    if w.isEmpty then none
    else if rest.isEmpty then
      if 2 ≤ w.length then some [w.getLastD ' '] else none
    else some (captureMinGo [] rest)
  else none

/-- Leftmost viable `Rese…` capture in `l`. -/
def findResetCapture : List Char → Option (List Char)
  | [] => none
  | c :: cs =>
    match resetMatchAt (c :: cs) with
    | some cap => some cap
    | none => findResetCapture cs

/-- Scanner behind `extract_reset_string`: leftmost case-insensitive
occurrence of the section label followed by a viable `Rese…` capture;
the captured group is stripped. -/
def resetScan (sectionLabel : List Char) : List Char → Option (List Char)
  | [] => none
  | c :: cs =>
    if (lowerL sectionLabel).isPrefixOf (lowerL (c :: cs)) then
      match findResetCapture ((c :: cs).drop sectionLabel.length) with
      | some cap => some (pyStrip cap)
      | none => resetScan sectionLabel cs
    else resetScan sectionLabel cs

/-- `extract_reset_string(text, sectionLabel)` (monitor.py). -/
def extract_reset_string (text sectionLabel : List Char) : Option (List Char) :=
  resetScan sectionLabel text

-- Reset-time resolution (monitor.py).

/-- The time-only sentinel step at the top of `adjust_to_future`: a
parsed year of 1900 means "time of day only", which is combined with
today's date. -/
def normalize1900 (dt now : PyDateTime) : PyDateTime :=
  if dt.year = 1900 then combineDate now dt else dt

/-- The weekly loop of `adjust_to_future`: `for days in range(1, 8)`,
returning the first day-shifted candidate that is in the future and at
most `window_hours` hours away. -/
def weekGo (dt now : PyDateTime) (window_hours : Nat) : Nat → Nat → Option PyDateTime
  | 0, _ => none
  | fuel + 1, d =>
    let candidate := addDays dt d
    if toSec now < toSec candidate ∧
        toSec candidate - toSec now ≤ (window_hours : Int) * 3600 then
      some candidate
    else weekGo dt now window_hours fuel (d + 1)

/-- `adjust_to_future(dt, now, window_hours)` (monitor.py): ensure the
reset time is in the future and within the window, returning `none`
for stale data. -/
def adjust_to_future (dt0 now : PyDateTime) (window_hours : Nat) : Option PyDateTime :=
  let dt := normalize1900 dt0 now
  if toSec dt < toSec now - 900 then
    if window_hours ≤ 24 then
      let candidate := addDays dt 1
      if toSec candidate - toSec now ≤ ((window_hours : Int) + 1) * 3600 then
        some candidate
      else none
    else weekGo dt now window_hours 7 1
  else some dt

/-- First format in the list that `strptime` accepts, with its parse. -/
def strptimeFirst (fmts : List (List FmtTok)) (l : List Char) : Option PyDateTime :=
  fmts.findSome? (fun fmt => strptimeWith fmt l)

/-- `parse_reset_time(time_str, window_hours, now)` (monitor.py).
Strategy 1 of the source is the third-party `dateutil` fuzzy parser,
which is not code of this repository; the source itself defines the
behaviour with `DATEUTIL_AVAILABLE = False` (the `ImportError` branch),
and this embedding models that configuration: explicit format lists
when the cleaned phrase contains `at`, then time-only formats combined
with today's date, every parse being projected through
`adjust_to_future`. -/
def parse_reset_time (time_str : Option String) (window_hours : Nat)
    (now : PyDateTime) : Option PyDateTime :=
  match time_str with
  | none => none
  | some s =>
    if s.isEmpty then none
    else
      let clean := clean_time_string s.toList
      match (if hasSub "at".toList (lowerL clean) then
               match strptimeFirst DATE_FORMATS_WITH_YEAR clean with
               | some dt => some dt
               | none =>
                 strptimeFirst
                   (DATE_FORMATS_NO_YEAR.map (fun f => f ++ [FmtTok.ws, FmtTok.dirY]))
                   (clean ++ (' ' :: (toString now.year).toList))
             else none) with
      | some dt => adjust_to_future dt now window_hours
      | none =>
        match strptimeFirst TIME_FORMATS clean with
        | some t => adjust_to_future (combineDate now t) now window_hours
        | none => none

-- `parse_usage` and validation (monitor.py).

/-- `ParseResult` (monitor.py): one record per capture attempt. -/
structure ParseResult where
  session_percent : Option Int := none
  session_reset_str : Option String := none
  session_reset_dt : Option PyDateTime := none
  week_percent : Option Int := none
  week_reset_str : Option String := none
  week_reset_dt : Option PyDateTime := none
  error : Option String := none
  warnings : List String := []
deriving DecidableEq, Repr

/-- `text.split(needle)[0]`: the prefix before the first occurrence of
`needle` (the whole text when absent). -/
def takeBeforeSub (needle : List Char) : List Char → List Char
  | [] => []
  | c :: cs =>
    if needle.isPrefixOf (c :: cs) then [] else c :: takeBeforeSub needle cs

/-- The `clean_text` local of `parse_usage` (monitor.py): line endings
normalized and ANSI sequences stripped. -/
def parse_usage_clean (content : String) : List Char :=
  strip_ansi (pyReplace "\r".toList "\n".toList
    (pyReplace "\r\n".toList "\n".toList content.toList))

/-- The `session_section` local of `parse_usage`:
`clean_text.split("Current week")[0]` when the marker occurs. -/
def parse_usage_session_section (content : String) : List Char :=
  if hasSub "Current week".toList (parse_usage_clean content) then
    takeBeforeSub "Current week".toList (parse_usage_clean content)
  else parse_usage_clean content

/-- `parse_usage(content, now)` (monitor.py): normalize line endings,
strip ANSI sequences, split off the session part before `Current week`,
extract both percentages and reset phrases, resolve the reset instants,
and report a missing required percentage through the `error` field. -/
def parse_usage (content : String) (now : PyDateTime) : ParseResult :=
  let clean_text := parse_usage_clean content
  let session_section := parse_usage_session_section content
  let sp := extract_percentage session_section "Current session".toList
  let srs := (extract_reset_string session_section "Current session".toList).map
    (fun l => String.mk l)
  let wp := extract_percentage clean_text "Current week (all models)".toList
  let wrs := (extract_reset_string clean_text "Current week (all models)".toList).map
    (fun l => String.mk l)
  { session_percent := sp.map (fun n => (n : Int)),
    session_reset_str := srs,
    session_reset_dt := parse_reset_time srs 5 now,
    week_percent := wp.map (fun n => (n : Int)),
    week_reset_str := wrs,
    week_reset_dt := parse_reset_time wrs 168 now,
    error :=
      if sp = none then some "Failed to extract session percentage"
      else if wp = none then some "Failed to extract week percentage"
      else none,
    warnings := [] }

/-- Python truthiness of an optional string (`if result.error:`):
present and nonempty. -/
def pyTruthyStr : Option String → Bool
  | none => false
  | some s => !s.isEmpty

/-- Two-digit zero-padded decimal. -/
def pad2 (n : Nat) : String := if n < 10 then "0" ++ toString n else toString n

/-- Four-digit zero-padded decimal. -/
def pad4 (n : Nat) : String :=
  if n < 10 then "000" ++ toString n
  else if n < 100 then "00" ++ toString n
  else if n < 1000 then "0" ++ toString n
  else toString n

/-- `str(datetime)` at second resolution: `YYYY-MM-DD HH:MM:SS`. -/
def dtStr (dt : PyDateTime) : String :=
  pad4 dt.year ++ "-" ++ pad2 dt.month ++ "-" ++ pad2 dt.day ++ " " ++
    pad2 dt.hour ++ ":" ++ pad2 dt.minute ++ ":" ++ pad2 dt.second

/-- Round `num/den` (`den > 0`) to the nearest integer, ties to even —
the rounding behind `%.1f` formatting on exact inputs. -/
def roundHalfEven (num den : Int) : Int :=
  let q := num.ediv den
  let r := num.emod den
  if 2 * r < den then q
  else if den < 2 * r then q + 1
  else if q % 2 = 0 then q else q + 1

/-- `f"{hours:.1f}"` for `hours = secsAway/3600` (abstracts Python's
binary-float formatting by exact rational rounding to one decimal). -/
def hoursStr (secsAway : Int) : String :=
  let t := roundHalfEven (secsAway * 10) 3600
  (if t < 0 then "-" else "") ++ toString (t.natAbs / 10) ++ "." ++ toString (t.natAbs % 10)

/-- The session reset-instant checks of `validate_result`, in source
order (more than 5 minutes in the past, then more than 6 hours ahead);
`some` is an early rejecting return. -/
def sessionDtCheck (result : ParseResult) (now : PyDateTime) : Option (Bool × Option String) :=
  match result.session_reset_dt with
  | none => none
  | some sdt =>
    if toSec sdt < toSec now - 300 then
      some (false, some ("Session reset " ++ dtStr sdt ++ " is in past"))
    else if 6 * 3600 < toSec sdt - toSec now then
      some (false, some ("Session reset " ++ hoursStr (toSec sdt - toSec now)
        ++ "h away exceeds window"))
    else none

/-- The week reset-instant checks of `validate_result` (more than 5
minutes in the past, then more than 169 hours ahead). -/
def weekDtCheck (result : ParseResult) (now : PyDateTime) : Option (Bool × Option String) :=
  match result.week_reset_dt with
  | none => none
  | some wdt =>
    if toSec wdt < toSec now - 300 then
      some (false, some ("Week reset " ++ dtStr wdt ++ " is in past"))
    else if 169 * 3600 < toSec wdt - toSec now then
      some (false, some ("Week reset " ++ hoursStr (toSec wdt - toSec now)
        ++ "h away exceeds window"))
    else none

/-- `validate_result(result, now)` (monitor.py): early-return checks in
source order — pipeline error, missing percentages, percentage ranges,
then the temporal checks (the float comparison `hours > 6` is modelled
exactly as `seconds > 6*3600`, and likewise for 169). -/
def validate_result (result : ParseResult) (now : PyDateTime) : Bool × Option String :=
  if pyTruthyStr result.error then (false, result.error)
  else
    match result.session_percent, result.week_percent with
    | none, _ => (false, some "Session percentage missing")
    | some _, none => (false, some "Week percentage missing")
    | some sp, some wp =>
      if ¬ (0 ≤ sp ∧ sp ≤ 100) then
        (false, some ("Session percent " ++ toString sp ++ " out of range"))
      else if ¬ (0 ≤ wp ∧ wp ≤ 100) then
        (false, some ("Week percent " ++ toString wp ++ " out of range"))
      else
        match sessionDtCheck result now with
        | some bad => bad
        | none =>
          match weekDtCheck result now with
          | some bad => bad
          | none => (true, none)

-- Capture layer (monitor.py), embedded over the list of attempt
-- outcomes (`none` models a raised `CaptureError`).

/-- `validate_capture(output)` (monitor.py): the stripped text must
contain the two sectionLabel markers and a percent-used marker. -/
def validate_capture (output : String) : Bool :=
  let clean := strip_ansi output.toList
  hasSub "Current session".toList clean &&
    hasSub "Current week".toList clean &&
    hasSub "% used".toList clean

/-- The retry loop of `capture_usage_output`: a raised `CaptureError`
(`none`) is swallowed and retried, an output failing the structural
predicate is discarded and retried, and the first validated output is
returned. -/
def captureGo : List (Option String) → Option String
  | [] => none
  | none :: rest => captureGo rest
  | some o :: rest => if validate_capture o then some o else captureGo rest

/-- `capture_usage_output(max_retries)` (monitor.py) as a function of
the outcomes of its successive `run_expect_capture` calls; the result
`none` models the final `raise CaptureError` after all retries. -/
def capture_usage_output (attempts : List (Option String)) (max_retries : Nat) :
    Option String :=
  captureGo (attempts.take max_retries)

-- Self-healing layer (self_heal.py).

/-- `FailureType` (self_heal.py). -/
inductive FailureType where
  | CAPTURE_TIMEOUT
  | CAPTURE_INCOMPLETE
  | PARSE_SECTION_MISSING
  | PARSE_PERCENTAGE
  | PARSE_DATE
  | VALIDATION
  | UNKNOWN
deriving DecidableEq, Repr

/-- The data `classify_failure` reads off a caught Python exception:
its class (`isinstance(error, CaptureError)`) and its text
(`str(error)`). -/
structure PyExc where
  isCaptureError : Bool
  msg : String
deriving DecidableEq, Repr

/-- `str.lower` on a string. -/
def lowerS (s : String) : String := String.mk (lowerL s.toList)

/-- Python's `needle in hay` on strings. -/
def hasSubS (needle hay : String) : Bool := hasSub needle.toList hay.toList

/-- `classify_failure(error, output)` (self_heal.py): priority-ordered
signature checks with fixed per-branch confidences. -/
def classify_failure (error : PyExc) (output : String) : FailureType × ℚ :=
  let error_str := lowerS error.msg
  let output_lower := lowerS output
  if error.isCaptureError then
    if hasSubS "timeout" error_str then (.CAPTURE_TIMEOUT, 0.95)
    else (.CAPTURE_INCOMPLETE, 0.85)
  else if !hasSubS "current session" output_lower
      || !hasSubS "current week" output_lower then
    (.PARSE_SECTION_MISSING, 0.90)
  else if hasSubS "time data" error_str
      || hasSubS "does not match format" error_str then
    (.PARSE_DATE, 0.95)
  else if hasSubS "out of range" error_str || hasSubS "exceeds window" error_str
      || hasSubS "in past" error_str then
    (.VALIDATION, 0.90)
  else if !hasSubS "% used" output_lower then (.PARSE_PERCENTAGE, 0.85)
  else if hasSubS "percentage" error_str then (.PARSE_PERCENTAGE, 0.80)
  else (.UNKNOWN, 0.50)

/-- `VERIFY_ATTEMPTS` (self_heal.py). -/
def VERIFY_ATTEMPTS : Nat := 3

/-- `VERIFY_THRESHOLD` (self_heal.py): 2 of 3 must pass. -/
def VERIFY_THRESHOLD : Nat := 2

/-- `verify_fix(attempts, threshold)` (self_heal.py) as a function of
the per-attempt outcomes of its capture+parse+validate trials: count
the successes of the first `attempts` trials and compare against the
threshold. -/
def verify_fix (outcomes : List Bool) (attempts threshold : Nat) : Bool :=
  threshold ≤ (outcomes.take attempts).count true

/-- The `apply` closure of `FixStrategies._fix_extend_wait`
(self_heal.py): `source.replace('sleep 0.5', 'sleep 1.0')`. -/
def extend_wait_apply (source : List Char) : List Char :=
  pyReplace "sleep 0.5".toList "sleep 1.0".toList source

/-- The `rollback` closure of `FixStrategies._fix_extend_wait`
(self_heal.py): `source.replace('sleep 1.0', 'sleep 0.5')`. -/
def extend_wait_rollback (source : List Char) : List Char :=
  pyReplace "sleep 1.0".toList "sleep 0.5".toList source

example : extract_percentage "Current session 42% used".toList "Current session".toList
    = some 42 := by decide
example : extract_reset_string "Current session 42% used   Resets 6:59pm\n".toList
    "Current session".toList = some "6:59pm".toList := by decide
example : parse_reset_time (some "6:59pm") 5 ⟨2026, 1, 10, 20, 0, 0⟩ = none := by decide
example : parse_reset_time (some "6:59pm") 24 ⟨2026, 1, 10, 20, 0, 0⟩
    = some ⟨2026, 1, 11, 18, 59, 0⟩ := by decide
example : parse_reset_time (some "11pm") 5 ⟨2026, 1, 10, 1, 0, 0⟩
    = some ⟨2026, 1, 10, 23, 0, 0⟩ := by decide
example : classify_failure ⟨true, "boom"⟩ "" = (.CAPTURE_INCOMPLETE, 0.85) := rfl
example : verify_fix [true, false, true] VERIFY_ATTEMPTS VERIFY_THRESHOLD = true := by decide

-- Round-trip behaviour of `pyReplace`-based fix closures (self_heal.py).

/-- A prefix of an append no longer than the first part is a prefix of
the first part. -/
theorem prefix_of_append_of_le {l a b : List Char} (h : l <+: a ++ b)
    (hl : l.length ≤ a.length) : l <+: a := by
  have h1 := List.prefix_iff_eq_take.mp h
  rw [List.take_append_eq_append_take, Nat.sub_eq_zero_of_le hl, List.take_zero,
    List.append_nil] at h1
  rw [h1]
  exact List.take_prefix _ _

/-- If a nonempty proper suffix of an unbordered `r` is a prefix of the
output of the replacement scan, it already was a prefix of the input:
the scan cannot manufacture a partial occurrence of `r`. -/
theorem drop_prefix_of_pyReplaceGo (p r : List Char) (_hp : p ≠ [])
    (hb : ∀ k, k < r.length → 0 < k → ¬ (r.drop k <+: r)) :
    ∀ fuel s k, s.length ≤ fuel → 0 < k → k < r.length →
      r.drop k <+: pyReplaceGo p r fuel s → r.drop k <+: s := by
  intro fuel
  induction fuel with
  | zero =>
    intro s k hs hk hkr hpre
    have hnil : s = [] := List.eq_nil_of_length_eq_zero (Nat.le_zero.mp hs)
    subst hnil
    have h0 : r.drop k = [] := List.prefix_nil.mp (by simpa [pyReplaceGo] using hpre)
    have := congrArg List.length h0
    simp [List.length_drop] at this
    omega
  | succ n ih =>
    intro s k hs hk hkr hpre
    cases s with
    | nil =>
      have h0 : r.drop k = [] := List.prefix_nil.mp (by simpa [pyReplaceGo] using hpre)
      have := congrArg List.length h0
      simp [List.length_drop] at this
      omega
    | cons c cs =>
      simp only [pyReplaceGo] at hpre
      by_cases hg : (decide (p ≠ []) && p.isPrefixOf (c :: cs)) = true
      · rw [if_pos hg] at hpre
        have hle : (r.drop k).length ≤ r.length := by
          simp [List.length_drop]
        exact absurd (prefix_of_append_of_le hpre hle) (hb k hkr hk)
      · rw [if_neg hg] at hpre
        have hsplit : r.drop k = r[k] :: r.drop (k + 1) := List.drop_eq_getElem_cons hkr
        rw [hsplit] at hpre
        obtain ⟨hc, htail⟩ := List.cons_prefix_cons.mp hpre
        by_cases hend : k + 1 < r.length
        · have htail2 : r.drop (k + 1) <+: cs := by
            refine ih cs (k + 1) ?_ (Nat.succ_pos k) hend htail
            simpa using Nat.le_of_succ_le_succ hs
          rw [hsplit, hc]
          exact List.cons_prefix_cons.mpr ⟨rfl, htail2⟩
        · have hdone : r.drop (k + 1) = [] := by
            apply List.drop_eq_nil_of_le
            omega
          rw [hsplit, hc, hdone]
          exact List.cons_prefix_cons.mpr ⟨rfl, List.nil_prefix⟩

/-- Stepping the scan over an occurrence of its own pattern `w` at the
head of the input: it is replaced and the scan continues after it. -/
theorem pyReplaceGo_append_head (q w : List Char) (hw : w ≠ []) (f : Nat) (X : List Char) :
    pyReplaceGo w q (f + 1) (w ++ X) = q ++ pyReplaceGo w q f X := by
  cases w with
  | nil => exact absurd rfl hw
  | cons wc wt =>
    simp only [List.cons_append, pyReplaceGo, List.append_eq]
    have hcond : (decide (wc :: wt ≠ []) && (wc :: wt).isPrefixOf (wc :: (wt ++ X))) = true := by
      simp only [Bool.and_eq_true, decide_eq_true_eq]
      refine ⟨by simp, ?_⟩
      exact List.isPrefixOf_iff_prefix.mpr
        (List.cons_append wc wt X ▸ List.prefix_append (wc :: wt) X)
    rw [if_pos hcond]
    congr 1
    have hlen : (wc :: wt).length - 1 = wt.length := by simp
    rw [hlen, List.drop_left]

/-- Round trip of two replacement scans: when the replacement token `r`
is unbordered and does not occur in the input, replacing `p` by `r` and
then `r` by `p` restores the input exactly. -/
theorem pyReplaceGo_roundtrip (p r : List Char) (hp : p ≠ []) (hr : 1 < r.length)
    (hb : ∀ k, k < r.length → 0 < k → ¬ (r.drop k <+: r)) :
    ∀ fuel1 s fuel2, s.length ≤ fuel1 → (pyReplaceGo p r fuel1 s).length ≤ fuel2 →
      ¬ (r <:+: s) → pyReplaceGo r p fuel2 (pyReplaceGo p r fuel1 s) = s := by
  intro fuel1
  induction fuel1 with
  | zero =>
    intro s fuel2 hs _ _
    have hnil : s = [] := List.eq_nil_of_length_eq_zero (Nat.le_zero.mp hs)
    subst hnil
    simp [pyReplaceGo]
  | succ n ih =>
    intro s fuel2 hs hs2 hinf
    cases s with
    | nil => simp [pyReplaceGo]
    | cons c cs =>
      by_cases hg : (decide (p ≠ []) && p.isPrefixOf (c :: cs)) = true
      · -- the scan consumed an occurrence of p and emitted r
        have hpre : p <+: c :: cs := by
          have hand := (Bool.and_eq_true _ _).mp hg
          simpa using hand.2
        obtain ⟨t, ht⟩ := hpre
        have hlenp : 1 ≤ p.length := by
          cases p with
          | nil => exact absurd rfl hp
          | cons _ _ => simp
        have htdrop : cs.drop (p.length - 1) = t := by
          have h1 : (p ++ t).drop p.length = t := List.drop_left _ _
          rw [ht] at h1
          have h2 : (c :: cs).drop p.length = cs.drop (p.length - 1) := by
            cases p with
            | nil => exact absurd rfl hp
            | cons q qs => simp
          rw [h2] at h1
          exact h1
        have hst : (c :: cs).length = p.length + t.length := by
          rw [← ht, List.length_append]
        have htn : t.length ≤ n := by
          simp at hs
          simp at hst
          omega
        have hinft : ¬ (r <:+: t) := by
          intro hcon
          apply hinf
          have hsuf : t <:+ c :: cs := by
            rw [← ht]
            exact ⟨p, rfl⟩
          exact hcon.trans hsuf.isInfix
        have hrne : r ≠ [] := by
          intro hcon
          rw [hcon] at hr
          simp at hr
        simp only [pyReplaceGo, if_pos hg, htdrop] at hs2 ⊢
        cases fuel2 with
        | zero =>
          exfalso
          rw [List.length_append] at hs2
          omega
        | succ f =>
          rw [pyReplaceGo_append_head p r hrne f (pyReplaceGo p r n t)]
          have hXlen : (pyReplaceGo p r n t).length ≤ f := by
            simp [List.length_append] at hs2
            omega
          rw [ih t f htn hXlen hinft, ht]
      · -- no match at this position
        simp only [pyReplaceGo, if_neg hg] at hs2 ⊢
        have hinfcs : ¬ (r <:+: cs) := fun hcon => hinf (List.infix_cons hcon)
        have hcslen : cs.length ≤ n := by
          simp at hs
          omega
        cases fuel2 with
        | zero =>
          exfalso
          simp at hs2
        | succ f =>
          have hnotr : ¬ (decide (r ≠ []) &&
              r.isPrefixOf (c :: pyReplaceGo p r n cs)) = true := by
            intro hcon
            have hpre2 : r <+: c :: pyReplaceGo p r n cs := by
              have hand := (Bool.and_eq_true _ _).mp hcon
              simpa using hand.2
            have hr0 : 0 < r.length := by omega
            have hsplit : r = r[0] :: r.drop 1 := by
              simpa using List.drop_eq_getElem_cons hr0
            nth_rewrite 1 [hsplit] at hpre2
            obtain ⟨hc, htail⟩ := List.cons_prefix_cons.mp hpre2
            have htail2 : r.drop 1 <+: cs :=
              drop_prefix_of_pyReplaceGo p r hp hb n cs 1 hcslen Nat.one_pos hr htail
            apply hinf
            have hrpre : r <+: c :: cs := by
              rw [hsplit, hc]
              exact List.cons_prefix_cons.mpr ⟨rfl, htail2⟩
            exact hrpre.isInfix
          simp only [pyReplaceGo, if_neg hnotr]
          have hYlen : (pyReplaceGo p r n cs).length ≤ f := by
            simp at hs2
            omega
          rw [ih cs f hcslen hYlen hinfcs]

/-- C3 counterexample: `Fix.apply` followed by `Fix.rollback` does not
restore every source-configuration text byte-identically.  For the
`extend_wait_time` fix, a source text already containing the post-apply
token `sleep 1.0` is untouched by `apply` (no `sleep 0.5` occurs) but
mutated by `rollback`, which maps it to `sleep 0.5` — not its pre-apply
state. -/
theorem extend_wait_roundtrip_counterexample :
    extend_wait_rollback (extend_wait_apply "sleep 1.0".toList) = "sleep 0.5".toList ∧
    "sleep 0.5".toList ≠ "sleep 1.0".toList := by
  exact ⟨by decide, by decide⟩

/-- Round trip of the `extend_wait_time` fix: `apply` followed by
`rollback` restores the source text byte-identically provided the text
contains no occurrence of the post-apply token `sleep 1.0`. -/
theorem extend_wait_roundtrip (s : List Char)
    (h : ¬ ("sleep 1.0".toList <:+: s)) :
    extend_wait_rollback (extend_wait_apply s) = s := by
  unfold extend_wait_apply extend_wait_rollback pyReplace
  exact pyReplaceGo_roundtrip "sleep 0.5".toList "sleep 1.0".toList (by decide) (by decide)
    (by decide) s.length s _ le_rfl le_rfl h

/-- The extend-wait round trip evaluated at a concrete source fragment. -/
theorem extend_wait_roundtrip_witness :
    extend_wait_rollback (extend_wait_apply "expect: sleep 0.5 then send".toList) =
      "expect: sleep 0.5 then send".toList :=
  extend_wait_roundtrip "expect: sleep 0.5 then send".toList (by decide)

/-- C2: with `now` at 8pm, the reset phrase `6:59pm` resolved against a
5-hour window yields absent (stale: even the forward-adjusted candidate
exceeds the window), while the same phrase against a 24-hour window
yields 18:59 on the following day. -/
theorem reset_phrase_stale_scenario :
    parse_reset_time (some "6:59pm") 5 ⟨2026, 1, 10, 20, 0, 0⟩ = none ∧
    parse_reset_time (some "6:59pm") 24 ⟨2026, 1, 10, 20, 0, 0⟩ =
      some ⟨2026, 1, 11, 18, 59, 0⟩ := by
  exact ⟨by decide, by decide⟩

/-- C4: verification runs a fixed odd number of attempts
(`VERIFY_ATTEMPTS = 3`) and accepts exactly when at least
`VERIFY_THRESHOLD = 2` — a strict majority — succeed; in particular
exactly 2 successes out of 3 are accepted and exactly 1 is rejected. -/
theorem verify_fix_majority :
    VERIFY_ATTEMPTS = 3 ∧ VERIFY_ATTEMPTS % 2 = 1 ∧
    VERIFY_ATTEMPTS < 2 * VERIFY_THRESHOLD ∧
    2 * (VERIFY_THRESHOLD - 1) ≤ VERIFY_ATTEMPTS ∧
    ∀ outcomes : List Bool, outcomes.length = VERIFY_ATTEMPTS →
      ((verify_fix outcomes VERIFY_ATTEMPTS VERIFY_THRESHOLD = true ↔
          VERIFY_THRESHOLD ≤ outcomes.count true) ∧
        (outcomes.count true = 2 →
          verify_fix outcomes VERIFY_ATTEMPTS VERIFY_THRESHOLD = true) ∧
        (outcomes.count true = 1 →
          verify_fix outcomes VERIFY_ATTEMPTS VERIFY_THRESHOLD = false)) := by
  refine ⟨rfl, rfl, by decide, by decide, ?_⟩
  intro outcomes hlen
  have htake : outcomes.take VERIFY_ATTEMPTS = outcomes := by
    rw [← hlen]
    exact List.take_length _
  unfold verify_fix
  rw [htake]
  refine ⟨by simp, ?_, ?_⟩
  · intro h2
    simp [h2, VERIFY_THRESHOLD]
  · intro h1
    simp [h1, VERIFY_THRESHOLD]

/-- Witness for C4 at concrete outcome vectors: two successes of three
are accepted, one of three is rejected. -/
theorem verify_fix_majority_witness :
    verify_fix [true, true, false] VERIFY_ATTEMPTS VERIFY_THRESHOLD = true ∧
    verify_fix [false, true, false] VERIFY_ATTEMPTS VERIFY_THRESHOLD = false := by
  refine ⟨?_, ?_⟩
  · exact ((verify_fix_majority.2.2.2.2 [true, true, false] (by decide)).2.1 (by decide))
  · exact ((verify_fix_majority.2.2.2.2 [false, true, false] (by decide)).2.2 (by decide))

/-- Whether a strategy result is accepted by the cascade of
`extract_percentage`: present and in the range 0–100. -/
def inRangeOpt : Option Nat → Bool
  | none => false
  | some v => if 0 ≤ v ∧ v ≤ 100 then true else false

/-- One step of the strategy loop. -/
theorem tryStrategies_cons (r : Option Nat) (rs : List (Option Nat)) :
    tryStrategies (r :: rs) = if inRangeOpt r then r else tryStrategies rs := by
  cases r with
  | none => simp [tryStrategies, inRangeOpt]
  | some v =>
    by_cases h : 0 ≤ v ∧ v ≤ 100
    · simp [tryStrategies, inRangeOpt, h]
    · simp [tryStrategies, inRangeOpt, h]

/-- Every accepted cascade value is at most 100. -/
theorem tryStrategies_le (rs : List (Option Nat)) :
    ∀ v, tryStrategies rs = some v → v ≤ 100 := by
  induction rs with
  | nil => intro v h; cases h
  | cons r rest ih =>
    intro v h
    cases r with
    | none => exact ih v h
    | some w =>
      by_cases hw : 0 ≤ w ∧ w ≤ 100
      · rw [tryStrategies, if_pos hw] at h
        cases h
        exact hw.2
      · rw [tryStrategies, if_neg hw] at h
        exact ih v h

/-- C7: `extract_percentage` runs its three strategies in the fixed
precedence order — direct pattern, structural scan, segmented scan —
accepting the first present in-range result, and never returns an
out-of-range value. -/
theorem extract_percentage_cascade (text sec : List Char) :
    (extract_percentage text sec =
      if inRangeOpt (extract_via_regex text sec) then extract_via_regex text sec
      else if inRangeOpt (extract_via_structure text sec) then extract_via_structure text sec
      else if inRangeOpt (extract_via_numbers text sec) then extract_via_numbers text sec
      else none) ∧
    (∀ v, extract_percentage text sec = some v → v ≤ 100) := by
  constructor
  · unfold extract_percentage
    rw [tryStrategies_cons, tryStrategies_cons, tryStrategies_cons]
    rfl
  · intro v h
    exact tryStrategies_le _ v h

/-- Witness for C7 at a concrete captured text. -/
theorem extract_percentage_cascade_witness :
    extract_percentage "Current session 42% used".toList "Current session".toList =
      some 42 ∧ 42 ≤ 100 := by
  refine ⟨by decide, ?_⟩
  exact (extract_percentage_cascade "Current session 42% used".toList
    "Current session".toList).2 42 (by decide)

/-- C9 counterexample: the claim quantifies over every exception, but a
`CaptureError` is classified by the capture branch before the section
check — with a captured text containing neither section marker, a
`CaptureError` without a timeout signature classifies as
capture-incomplete with confidence 0.85, not section-missing 0.90. -/
theorem classify_capture_error_counterexample :
    hasSubS "current session" (lowerS "") = false ∧
    hasSubS "current week" (lowerS "") = false ∧
    classify_failure ⟨true, "expect session died"⟩ "" =
      (FailureType.CAPTURE_INCOMPLETE, 0.85) ∧
    (FailureType.CAPTURE_INCOMPLETE, (0.85 : ℚ)) ≠
      (FailureType.PARSE_SECTION_MISSING, (0.90 : ℚ)) := by
  refine ⟨by decide, by decide, rfl, ?_⟩
  simp

/-- C9 (amended): for every exception that is not a `CaptureError` and
every captured text lacking both the `Current session` and the
`Current week` marker (case-insensitively), the classifier returns the
section-missing category with confidence 0.90, independent of the
exception's message. -/
theorem classify_section_missing (e : PyExc) (output : String)
    (hcap : e.isCaptureError = false)
    (hs : hasSubS "current session" (lowerS output) = false)
    (hw : hasSubS "current week" (lowerS output) = false) :
    classify_failure e output = (FailureType.PARSE_SECTION_MISSING, 0.90) := by
  unfold classify_failure
  rw [hcap]
  simp [hs, hw]

/-- Witness for the amended C9 theorem: a non-capture exception with an
arbitrary message and a marker-free text. -/
theorem classify_section_missing_witness :
    classify_failure ⟨false, "time data mismatch"⟩ "garbage output" =
      (FailureType.PARSE_SECTION_MISSING, 0.90) :=
  classify_section_missing ⟨false, "time data mismatch"⟩ "garbage output" rfl
    (by decide) (by decide)

/-- Any instant the weekly loop returns lies in the future and at most
`window_hours` hours after `now` (the loop's own guard). -/
theorem weekGo_bound (dt now : PyDateTime) (w : Nat) :
    ∀ fuel d c, weekGo dt now w fuel d = some c →
      toSec now < toSec c ∧ toSec c - toSec now ≤ (w : Int) * 3600 := by
  intro fuel
  induction fuel with
  | zero => intro d c h; simp [weekGo] at h
  | succ n ih =>
    intro d c h
    simp only [weekGo] at h
    by_cases hcond : toSec now < toSec (addDays dt d) ∧
        toSec (addDays dt d) - toSec now ≤ (w : Int) * 3600
    · rw [if_pos hcond] at h
      cases h
      exact hcond
    · rw [if_neg hcond] at h
      exact ih (d + 1) c h

/-- C1 counterexample: the resolver does return instants farther than
`window_hours + 1h` from `now`.  With `now` at 01:00 the phrase `11pm`
parses to 23:00 the same day; being in the future it is returned
unchanged, 22 hours ahead of `now` — far beyond the 6-hour bound of a
5-hour window. -/
theorem parse_reset_time_window_counterexample :
    parse_reset_time (some "11pm") 5 ⟨2026, 1, 10, 1, 0, 0⟩ =
      some ⟨2026, 1, 10, 23, 0, 0⟩ ∧
    ((5 : Int) + 1) * 3600 <
      toSec ⟨2026, 1, 10, 23, 0, 0⟩ - toSec ⟨2026, 1, 10, 1, 0, 0⟩ := by
  exact ⟨by decide, by decide⟩

/-- C1 (amended): the resolver's window bounds hold only for candidates
it adjusts forward.  Every instant `adjust_to_future` returns falls in
exactly one of three cases: a candidate not more than 15 minutes in the
past is returned unchanged with no window check at all; a stale
candidate under a window of at most 24 hours is shifted one day forward
and returned only when at most `window_hours + 1` hours from `now`
(though it may still lie in the past); and a stale candidate under a
longer window is returned only when strictly in the future and within
`window_hours` of `now`.  When no such candidate exists the resolver
yields absent. -/
theorem adjust_to_future_trichotomy (dt0 now : PyDateTime) (w : Nat) (c : PyDateTime)
    (h : adjust_to_future dt0 now w = some c) :
    (¬ (toSec (normalize1900 dt0 now) < toSec now - 900) ∧ c = normalize1900 dt0 now) ∨
    (toSec (normalize1900 dt0 now) < toSec now - 900 ∧ w ≤ 24 ∧
      c = addDays (normalize1900 dt0 now) 1 ∧
      toSec c - toSec now ≤ ((w : Int) + 1) * 3600) ∨
    (toSec (normalize1900 dt0 now) < toSec now - 900 ∧ 24 < w ∧
      toSec now < toSec c ∧ toSec c - toSec now ≤ (w : Int) * 3600) := by
  simp only [adjust_to_future] at h
  by_cases hpast : toSec (normalize1900 dt0 now) < toSec now - 900
  · rw [if_pos hpast] at h
    by_cases hw : w ≤ 24
    · rw [if_pos hw] at h
      by_cases hcand : toSec (addDays (normalize1900 dt0 now) 1) - toSec now ≤
          ((w : Int) + 1) * 3600
      · rw [if_pos hcand] at h
        cases h
        exact Or.inr (Or.inl ⟨hpast, hw, rfl, hcand⟩)
      · rw [if_neg hcand] at h
        cases h
    · rw [if_neg hw] at h
      obtain ⟨h1, h2⟩ := weekGo_bound (normalize1900 dt0 now) now w 7 1 c h
      exact Or.inr (Or.inr ⟨hpast, by omega, h1, h2⟩)
  · rw [if_neg hpast] at h
    cases h
    exact Or.inl ⟨hpast, rfl⟩

/-- Witness for the amended C1 theorem at the stale 6:59pm/24h
instance: the forward-shifted candidate case applies. -/
theorem adjust_to_future_trichotomy_witness :
    adjust_to_future ⟨2026, 1, 10, 18, 59, 0⟩ ⟨2026, 1, 10, 20, 0, 0⟩ 24 =
      some ⟨2026, 1, 11, 18, 59, 0⟩ ∧
    ((¬ (toSec (normalize1900 ⟨2026, 1, 10, 18, 59, 0⟩ ⟨2026, 1, 10, 20, 0, 0⟩) <
          toSec ⟨2026, 1, 10, 20, 0, 0⟩ - 900) ∧
        (⟨2026, 1, 11, 18, 59, 0⟩ : PyDateTime) =
          normalize1900 ⟨2026, 1, 10, 18, 59, 0⟩ ⟨2026, 1, 10, 20, 0, 0⟩) ∨
      (toSec (normalize1900 ⟨2026, 1, 10, 18, 59, 0⟩ ⟨2026, 1, 10, 20, 0, 0⟩) <
          toSec ⟨2026, 1, 10, 20, 0, 0⟩ - 900 ∧ 24 ≤ 24 ∧
        (⟨2026, 1, 11, 18, 59, 0⟩ : PyDateTime) =
          addDays (normalize1900 ⟨2026, 1, 10, 18, 59, 0⟩ ⟨2026, 1, 10, 20, 0, 0⟩) 1 ∧
        toSec (⟨2026, 1, 11, 18, 59, 0⟩ : PyDateTime) -
            toSec ⟨2026, 1, 10, 20, 0, 0⟩ ≤ ((24 : Int) + 1) * 3600) ∨
      (toSec (normalize1900 ⟨2026, 1, 10, 18, 59, 0⟩ ⟨2026, 1, 10, 20, 0, 0⟩) <
          toSec ⟨2026, 1, 10, 20, 0, 0⟩ - 900 ∧ 24 < 24 ∧
        toSec ⟨2026, 1, 10, 20, 0, 0⟩ < toSec (⟨2026, 1, 11, 18, 59, 0⟩ : PyDateTime) ∧
        toSec (⟨2026, 1, 11, 18, 59, 0⟩ : PyDateTime) -
            toSec ⟨2026, 1, 10, 20, 0, 0⟩ ≤ (24 : Int) * 3600)) :=
  ⟨by decide, adjust_to_future_trichotomy ⟨2026, 1, 10, 18, 59, 0⟩
    ⟨2026, 1, 10, 20, 0, 0⟩ 24 ⟨2026, 1, 11, 18, 59, 0⟩ (by decide)⟩

-- C6: the structural-scan strategy.

/-- Modelled from the amended claim wording: the per-line scan after
the label line.  A line containing the label is skipped; otherwise the
line's first `N%` token is returned when in range — even when that line
is another section's `Current …` header — and otherwise a line
containing `current` stops the scan without a result. -/
def amendedScan (sec : List Char) : List (List Char) → Option Nat
  | [] => none
  | line :: rest =>
    if hasSub (lowerL sec) (lowerL line) then amendedScan sec rest
    else
      match findPct line with
      | some v =>
        if 0 ≤ v ∧ v ≤ 100 then some v
        else if hasSub "current".toList (lowerL line) then none
        else amendedScan sec rest
      | none =>
        if hasSub "current".toList (lowerL line) then none
        else amendedScan sec rest

/-- Modelled from the amended claim wording: locate the first line
containing the section label, then run the per-line scan on the
following lines. -/
def extract_via_structure_amended (text sec : List Char) : Option Nat :=
  match (splitLines text).dropWhile (fun line => !(hasSub (lowerL sec) (lowerL line))) with
  | [] => none
  | _ :: rest => amendedScan sec rest

/-- Once inside the section the source loop agrees with the amended
per-line scan. -/
theorem structScan_true_eq (sec : List Char) :
    ∀ lines, structScan sec true lines = amendedScan sec lines := by
  intro lines
  induction lines with
  | nil => rfl
  | cons line rest ih =>
    cases hl : hasSub (lowerL sec) (lowerL line) with
    | true => simp [structScan, amendedScan, hl, ih]
    | false =>
      cases hf : findPct line with
      | some v => simp [structScan, amendedScan, hl, hf, ih]
      | none => simp [structScan, amendedScan, hl, hf, ih]

/-- C6 (amended): the structural scan equals the amended description —
after locating the label line it scans forward line by line, skipping
further label lines, returning a line's first `N%` token whenever it is
in range (also on another section's header line), and stopping without
a result at a `current` line that yields no in-range token. -/
theorem extract_via_structure_matches_amended (text sec : List Char) :
    extract_via_structure text sec = extract_via_structure_amended text sec := by
  unfold extract_via_structure extract_via_structure_amended
  generalize splitLines text = lines
  induction lines with
  | nil => rfl
  | cons line rest ih =>
    cases hl : hasSub (lowerL sec) (lowerL line) with
    | true => simp [structScan, hl, List.dropWhile, structScan_true_eq]
    | false => simp [structScan, hl, List.dropWhile, ih]

/-- C6 counterexample: the structural scan does return a percentage
taken from another section's header line.  After the `Current session`
label line, the very next line is the `Current week` header carrying
`42% used`; the scan checks the line for a percentage before checking
whether it is another section's header, so it returns 42 instead of
stopping. -/
theorem extract_via_structure_header_percent_counterexample :
    extract_via_structure
        "Current session\nCurrent week (all models) 42% used".toList
        "Current session".toList = some 42 ∧
    hasSub "current".toList (lowerL "Current week (all models) 42% used".toList) = true ∧
    hasSub (lowerL "Current session".toList)
        (lowerL "Current week (all models) 42% used".toList) = false := by
  exact ⟨by decide, by decide, by decide⟩

-- C8: capture returns only validated output.

/-- Any output the capture loop returns passed the structural predicate
and came from one of the attempts. -/
theorem captureGo_mem : ∀ l : List (Option String), ∀ o, captureGo l = some o →
    validate_capture o = true ∧ some o ∈ l := by
  intro l
  induction l with
  | nil => intro o h; cases h
  | cons a rest ih =>
    intro o h
    cases a with
    | none =>
      simp only [captureGo] at h
      obtain ⟨h1, h2⟩ := ih o h
      exact ⟨h1, List.mem_cons_of_mem _ h2⟩
    | some s =>
      by_cases hv : validate_capture s = true
      · simp only [captureGo, if_pos hv] at h
        cases h
        exact ⟨hv, List.mem_cons_self _ _⟩
      · simp only [captureGo, if_neg hv] at h
        obtain ⟨h1, h2⟩ := ih o h
        exact ⟨h1, List.mem_cons_of_mem _ h2⟩

/-- When every attempt either raises or fails the predicate, the
capture loop fails. -/
theorem captureGo_none : ∀ l : List (Option String),
    (∀ a ∈ l, ∀ o, a = some o → validate_capture o = false) → captureGo l = none := by
  intro l
  induction l with
  | nil => intro _; rfl
  | cons a rest ih =>
    intro hall
    cases a with
    | none =>
      simp only [captureGo]
      exact ih (fun a ha o ho => hall a (List.mem_cons_of_mem _ ha) o ho)
    | some s =>
      have hs : validate_capture s = false :=
        hall (some s) (List.mem_cons_self _ _) s rfl
      simp only [captureGo, hs]
      exact ih (fun a ha o ho => hall a (List.mem_cons_of_mem _ ha) o ho)

/-- C8: over its bounded 3 attempts, `capture_usage_output` returns
only an attempt output that satisfies the structural predicate
`validate_capture`; attempts that raise or fail the predicate are
discarded, and when none of the 3 attempts yields a validated output
the capture fails with `CaptureError` (modelled by `none`). -/
theorem capture_returns_validated (attempts : List (Option String)) :
    (∀ o, capture_usage_output attempts 3 = some o →
      validate_capture o = true ∧ some o ∈ attempts.take 3) ∧
    ((∀ a ∈ attempts.take 3, ∀ o, a = some o → validate_capture o = false) →
      capture_usage_output attempts 3 = none) := by
  constructor
  · intro o h
    exact captureGo_mem _ o h
  · intro hall
    exact captureGo_none _ hall

/-- Witness for C8: a failed first attempt followed by a validated one. -/
theorem capture_returns_validated_witness :
    capture_usage_output
        [none, some "Current session 42% used\nCurrent week (all models) 10% used"] 3 =
      some "Current session 42% used\nCurrent week (all models) 10% used" ∧
    validate_capture "Current session 42% used\nCurrent week (all models) 10% used" =
      true := by
  refine ⟨by decide, ?_⟩
  exact ((capture_returns_validated
    [none, some "Current session 42% used\nCurrent week (all models) 10% used"]).1 _
    (by decide)).1

-- C10: `parse_usage` reports missing percentages through the result.

/-- The `error` field of a `parse_usage` result is determined by the
two percentage extractions, which also populate the percent fields. -/
theorem parse_usage_error_eq (content : String) (now : PyDateTime) :
    ∃ sp wp : Option Nat,
      (parse_usage content now).session_percent = sp.map (fun n => (n : Int)) ∧
      (parse_usage content now).week_percent = wp.map (fun n => (n : Int)) ∧
      (parse_usage content now).error =
        (if sp = none then some "Failed to extract session percentage"
         else if wp = none then some "Failed to extract week percentage"
         else none) := by
  refine ⟨extract_percentage (parse_usage_session_section content) "Current session".toList,
    extract_percentage (parse_usage_clean content) "Current week (all models)".toList,
    ?_, ?_, ?_⟩
  · rfl
  · rfl
  · rfl

set_option maxHeartbeats 2000000 in
/-- C5: `validate_result` returns ok exactly when no failure condition
holds — no (truthy) pipeline error, both percentages present and in
[0,100], and every resolved reset instant at most 5 minutes in the past
and within its window (5h/168h) plus the 1-hour buffer; a result
carrying a pipeline error is rejected immediately with that error as
the reason, before any other check; and every rejection carries a
reason. -/
theorem validate_result_characterization (r : ParseResult) (now : PyDateTime) :
    ((validate_result r now).1 = true ↔
      (pyTruthyStr r.error = false ∧
        (∃ sp, r.session_percent = some sp ∧ 0 ≤ sp ∧ sp ≤ 100) ∧
        (∃ wp, r.week_percent = some wp ∧ 0 ≤ wp ∧ wp ≤ 100) ∧
        (∀ d, r.session_reset_dt = some d →
          toSec now - 300 ≤ toSec d ∧ toSec d - toSec now ≤ 6 * 3600) ∧
        (∀ d, r.week_reset_dt = some d →
          toSec now - 300 ≤ toSec d ∧ toSec d - toSec now ≤ 169 * 3600))) ∧
    (pyTruthyStr r.error = true → validate_result r now = (false, r.error)) ∧
    ((validate_result r now).1 = false → (validate_result r now).2 ≠ none) := by
  obtain ⟨spo, srs, sdto, wpo, wrs, wdto, erro, warns⟩ := r
  refine ⟨?_, ?_, ?_⟩
  · cases spo <;> cases wpo <;> cases sdto <;> cases wdto
    all_goals (
      unfold validate_result sessionDtCheck weekDtCheck
      dsimp only
      split_ifs
      all_goals try dsimp only
      all_goals try simp_all
      all_goals try omega)
  · intro h
    unfold validate_result
    rw [if_pos h]
  · cases erro <;> cases spo <;> cases wpo <;> cases sdto <;> cases wdto
    all_goals (
      unfold validate_result sessionDtCheck weekDtCheck
      try dsimp only
      try split_ifs
      all_goals try dsimp only
      all_goals try simp_all [pyTruthyStr])

/-- Witness for C5: a result carrying a pipeline error is rejected
immediately with that error as the reason. -/
theorem validate_result_characterization_witness :
    validate_result { error := some "expect timeout" } ⟨2026, 1, 10, 12, 0, 0⟩ =
      (false, some "expect timeout") :=
  (validate_result_characterization { error := some "expect timeout" }
    ⟨2026, 1, 10, 12, 0, 0⟩).2.1 (by decide)

-- Additional machinery for the remaining fix strategies of the
-- catalog (self_heal.py): general step lemmas for replacement scans.

/-- The replacement scan does not depend on the fuel once the fuel
covers the input length. -/
theorem pyReplaceGo_fuel_irrel (p r : List Char) :
    ∀ n s, s.length ≤ n → ∀ f1 f2, s.length ≤ f1 → s.length ≤ f2 →
      pyReplaceGo p r f1 s = pyReplaceGo p r f2 s := by
  intro n
  induction n with
  | zero =>
    intro s hs f1 f2 _ _
    have hnil : s = [] := List.eq_nil_of_length_eq_zero (Nat.le_zero.mp hs)
    subst hnil
    simp [pyReplaceGo]
  | succ m ih =>
    intro s hs f1 f2 h1 h2
    cases s with
    | nil => simp [pyReplaceGo]
    | cons c cs =>
      cases f1 with
      | zero => simp at h1
      | succ a =>
        cases f2 with
        | zero => simp at h2
        | succ b =>
          have hcs : cs.length ≤ m := by simp at hs; omega
          have ha : cs.length ≤ a := by simp at h1; omega
          have hb2 : cs.length ≤ b := by simp at h2; omega
          by_cases hg : (decide (p ≠ []) && p.isPrefixOf (c :: cs)) = true
          · simp only [pyReplaceGo, if_pos hg]
            congr 1
            have hdl : (cs.drop (p.length - 1)).length ≤ cs.length := by
              simp [List.length_drop]
            exact ih _ (by omega) a b (by omega) (by omega)
          · simp only [pyReplaceGo, if_neg hg]
            congr 1
            exact ih cs hcs a b ha hb2

/-- Evaluate one non-matching step of `pyReplace`. -/
theorem pyReplace_cons_nomatch (p r : List Char) (c : Char) (cs : List Char)
    (h : ¬ (decide (p ≠ []) && p.isPrefixOf (c :: cs)) = true) :
    pyReplace p r (c :: cs) = c :: pyReplace p r cs := by
  unfold pyReplace
  simp only [List.length_cons, pyReplaceGo, if_neg h]

/-- Evaluate the matching head step of `pyReplace` at its own pattern. -/
theorem pyReplace_head_match (q w : List Char) (hw : w ≠ []) (X : List Char) :
    pyReplace w q (w ++ X) = q ++ pyReplace w q X := by
  unfold pyReplace
  obtain ⟨f, hf⟩ : ∃ f, (w ++ X).length = f + 1 := by
    cases w with
    | nil => exact absurd rfl hw
    | cons a as => exact ⟨(as ++ X).length, by simp⟩
  have hXf : X.length ≤ f := by
    have := hf
    rw [List.length_append] at this
    have hw1 : 1 ≤ w.length := by
      cases w with
      | nil => exact absurd rfl hw
      | cons _ _ => simp
    omega
  rw [hf, pyReplaceGo_append_head q w hw f X]
  congr 1
  exact pyReplaceGo_fuel_irrel w q X.length X le_rfl f X.length hXf le_rfl

/-- A prefix in which the pattern cannot start anywhere (the boundary
condition also rules out matches extending past it) passes through the
scan unchanged. -/
theorem pyReplace_skip (p r : List Char) :
    ∀ u X, (∀ k, k < u.length →
        ¬ ((p.take (u.length - k)).isPrefixOf (u.drop k) = true)) →
      pyReplace p r (u ++ X) = u ++ pyReplace p r X := by
  intro u
  induction u with
  | nil => intro X _; simp
  | cons c u' ihu =>
    intro X hu
    have hnm : ¬ (decide (p ≠ []) && p.isPrefixOf (c :: (u' ++ X))) = true := by
      intro hcon
      have hpre : p <+: (c :: u') ++ X := by
        have hand := (Bool.and_eq_true _ _).mp hcon
        simpa [List.cons_append] using hand.2
      have h1 : p.take (c :: u').length <+: (c :: u') ++ X :=
        (List.take_prefix _ _).trans hpre
      have h2 : p.take (c :: u').length <+: (c :: u') := by
        apply prefix_of_append_of_le h1
        simp [List.length_take]
      have h0 := hu 0 (by simp)
      apply h0
      have hgoal : p.take ((c :: u').length - 0) <+: (c :: u').drop 0 := by
        simpa using h2
      simpa [List.isPrefixOf_iff_prefix] using hgoal
    rw [List.cons_append, pyReplace_cons_nomatch p r c (u' ++ X) hnm, ihu X ?hu']
    case hu' =>
      intro k hk
      have hshift := hu (k + 1) (by simp; omega)
      simpa [List.length_cons, List.drop_succ_cons, Nat.succ_sub_succ] using hshift
    simp

/-- Tracker pull-back for a scan whose replacement token starts with a
character that no suffix of the tracked string starts with: a suffix of
the tracked string that prefixes the output already prefixed the
input. -/
theorem pyReplace_track_go (p r σ0 : List Char) (hr : r ≠ [])
    (hd : ∀ k, k < σ0.length → (σ0.drop k).head? ≠ r.head?) :
    ∀ fuel s k, s.length ≤ fuel → k < σ0.length →
      (σ0.drop k) <+: pyReplaceGo p r fuel s → (σ0.drop k) <+: s := by
  intro fuel
  induction fuel with
  | zero =>
    intro s k hs hk hpre
    have hnil : s = [] := List.eq_nil_of_length_eq_zero (Nat.le_zero.mp hs)
    subst hnil
    have h0 : σ0.drop k = [] := List.prefix_nil.mp (by simpa [pyReplaceGo] using hpre)
    have := congrArg List.length h0
    simp [List.length_drop] at this
    omega
  | succ n ih =>
    intro s k hs hk hpre
    cases s with
    | nil =>
      have h0 : σ0.drop k = [] := List.prefix_nil.mp (by simpa [pyReplaceGo] using hpre)
      have := congrArg List.length h0
      simp [List.length_drop] at this
      omega
    | cons c cs =>
      simp only [pyReplaceGo] at hpre
      by_cases hg : (decide (p ≠ []) && p.isPrefixOf (c :: cs)) = true
      · rw [if_pos hg] at hpre
        exfalso
        have hsplit : σ0.drop k = σ0[k] :: σ0.drop (k + 1) := List.drop_eq_getElem_cons hk
        cases hrs : r with
        | nil => exact absurd hrs hr
        | cons rh rt =>
          rw [hsplit, hrs, List.cons_append] at hpre
          obtain ⟨hc, _⟩ := List.cons_prefix_cons.mp hpre
          apply hd k hk
          rw [hsplit, hrs, hc]
          rfl
      · rw [if_neg hg] at hpre
        have hsplit : σ0.drop k = σ0[k] :: σ0.drop (k + 1) := List.drop_eq_getElem_cons hk
        rw [hsplit] at hpre
        obtain ⟨hc, htail⟩ := List.cons_prefix_cons.mp hpre
        by_cases hend : k + 1 < σ0.length
        · have htail2 : σ0.drop (k + 1) <+: cs := by
            refine ih cs (k + 1) ?_ hend htail
            simpa using Nat.le_of_succ_le_succ hs
          rw [hsplit, hc]
          exact List.cons_prefix_cons.mpr ⟨rfl, htail2⟩
        · have hdone : σ0.drop (k + 1) = [] := by
            apply List.drop_eq_nil_of_le
            omega
          rw [hsplit, hc, hdone]
          exact List.cons_prefix_cons.mpr ⟨rfl, List.nil_prefix⟩

/-- `pyReplace`-level form of the tracker pull-back. -/
theorem pyReplace_track (p r σ0 : List Char) (hr : r ≠ []) (h0 : 0 < σ0.length)
    (hd : ∀ k, k < σ0.length → (σ0.drop k).head? ≠ r.head?)
    (s : List Char) (h : σ0 <+: pyReplace p r s) : σ0 <+: s := by
  have htr := pyReplace_track_go p r σ0 hr hd s.length s 0 le_rfl h0 (by simpa using h)
  simpa using htr

/-- `pyReplace`-level round trip for a single replacement pair with an
unbordered replacement token not occurring in the input. -/
theorem pyReplace_roundtrip (p r : List Char) (hp : p ≠ []) (hr : 1 < r.length)
    (hb : ∀ k, k < r.length → 0 < k → ¬ (r.drop k <+: r)) (s : List Char)
    (hinf : ¬ (r <:+: s)) : pyReplace r p (pyReplace p r s) = s := by
  unfold pyReplace
  exact pyReplaceGo_roundtrip p r hp hr hb s.length s _ le_rfl le_rfl hinf

/-- The `apply` closure of `FixStrategies._fix_add_section_wait`
(self_heal.py): `source.replace('sleep 2.0', 'sleep 3.0')`. -/
def add_section_wait_apply (source : List Char) : List Char :=
  pyReplace "sleep 2.0".toList "sleep 3.0".toList source

/-- The `rollback` closure of `FixStrategies._fix_add_section_wait`
(self_heal.py): `source.replace('sleep 3.0', 'sleep 2.0')`. -/
def add_section_wait_rollback (source : List Char) : List Char :=
  pyReplace "sleep 3.0".toList "sleep 2.0".toList source

/-- The `apply` closure of `FixStrategies._fix_relax_section_regex`
(self_heal.py): `source.replace('Rese[ts]*', 'Rese[tst]*')`. -/
def relax_section_regex_apply (source : List Char) : List Char :=
  pyReplace "Rese[ts]*".toList "Rese[tst]*".toList source

/-- The `rollback` closure of `FixStrategies._fix_relax_section_regex`
(self_heal.py): `source.replace('Rese[tst]*', 'Rese[ts]*')`. -/
def relax_section_regex_rollback (source : List Char) : List Char :=
  pyReplace "Rese[tst]*".toList "Rese[ts]*".toList source

/-- The `apply` closure of `FixStrategies._fix_broaden_percentage_regex`
(self_heal.py): replace the literal text `(\d+)%\s*used` by
`(\d+)\s*%\s*used`. -/
def broaden_percentage_regex_apply (source : List Char) : List Char :=
  pyReplace "(\\d+)%\\s*used".toList "(\\d+)\\s*%\\s*used".toList source

/-- The `rollback` closure of
`FixStrategies._fix_broaden_percentage_regex` (self_heal.py). -/
def broaden_percentage_regex_rollback (source : List Char) : List Char :=
  pyReplace "(\\d+)\\s*%\\s*used".toList "(\\d+)%\\s*used".toList source

/-- The `apply` closure of
`FixStrategies._fix_increase_validation_buffer` (self_heal.py): two
chained replacements, `hours > 6:` to `hours > 7:` first, then
`hours > 169:` to `hours > 170:`. -/
def increase_validation_buffer_apply (source : List Char) : List Char :=
  pyReplace "hours > 169:".toList "hours > 170:".toList
    (pyReplace "hours > 6:".toList "hours > 7:".toList source)

/-- The `rollback` closure of
`FixStrategies._fix_increase_validation_buffer` (self_heal.py):
`hours > 7:` back to `hours > 6:` first, then `hours > 170:` back to
`hours > 169:`. -/
def increase_validation_buffer_rollback (source : List Char) : List Char :=
  pyReplace "hours > 170:".toList "hours > 169:".toList
    (pyReplace "hours > 7:".toList "hours > 6:".toList source)

/-- A pattern that is not a prefix gives a non-matching scan step. -/
theorem nomatch_of_unmatched_head (p : List Char) (c : Char) (cs : List Char)
    (h : ¬ (p <+: c :: cs)) :
    ¬ (decide (p ≠ []) && p.isPrefixOf (c :: cs)) = true := by
  intro hcon
  exact h (by simpa using ((Bool.and_eq_true _ _).mp hcon).2)

/-- Round trip of the two chained buffer replacements, by strong
induction on the source: a matched `hours > 6:` or `hours > 169:` head
is rewritten and restored through all four scans (the other scans pass
over the foreign tokens unchanged), while at a non-matching head all
four scans emit the character, the two rollback scans being unable to
find their tokens there because neither occurs in the source. -/
theorem increase_validation_buffer_aux :
    ∀ n s, s.length ≤ n →
      ¬ ("hours > 7:".toList <:+: s) → ¬ ("hours > 170:".toList <:+: s) →
      pyReplace "hours > 170:".toList "hours > 169:".toList
        (pyReplace "hours > 7:".toList "hours > 6:".toList
          (pyReplace "hours > 169:".toList "hours > 170:".toList
            (pyReplace "hours > 6:".toList "hours > 7:".toList s))) = s := by
  intro n
  induction n with
  | zero =>
    intro s hs _ _
    have hnil : s = [] := List.eq_nil_of_length_eq_zero (Nat.le_zero.mp hs)
    subst hnil
    rfl
  | succ m ih =>
    intro s hs h1 h2
    by_cases hp1 : "hours > 6:".toList <+: s
    · obtain ⟨t, ht⟩ := hp1
      have htlen : t.length ≤ m := by
        have := congrArg List.length ht
        simp at this
        omega
      have hinf1 : ¬ ("hours > 7:".toList <:+: t) := by
        intro hcon
        exact h1 (hcon.trans (show t <:+ s from ⟨_, ht⟩).isInfix)
      have hinf2 : ¬ ("hours > 170:".toList <:+: t) := by
        intro hcon
        exact h2 (hcon.trans (show t <:+ s from ⟨_, ht⟩).isInfix)
      rw [← ht]
      rw [pyReplace_head_match "hours > 7:".toList "hours > 6:".toList (by decide) t]
      rw [pyReplace_skip "hours > 169:".toList "hours > 170:".toList
        "hours > 7:".toList _ (by decide)]
      rw [pyReplace_head_match "hours > 6:".toList "hours > 7:".toList (by decide)]
      rw [pyReplace_skip "hours > 170:".toList "hours > 169:".toList
        "hours > 6:".toList _ (by decide)]
      rw [ih t htlen hinf1 hinf2]
    · by_cases hp2 : "hours > 169:".toList <+: s
      · obtain ⟨t, ht⟩ := hp2
        have htlen : t.length ≤ m := by
          have := congrArg List.length ht
          simp at this
          omega
        have hinf1 : ¬ ("hours > 7:".toList <:+: t) := by
          intro hcon
          exact h1 (hcon.trans (show t <:+ s from ⟨_, ht⟩).isInfix)
        have hinf2 : ¬ ("hours > 170:".toList <:+: t) := by
          intro hcon
          exact h2 (hcon.trans (show t <:+ s from ⟨_, ht⟩).isInfix)
        rw [← ht]
        rw [pyReplace_skip "hours > 6:".toList "hours > 7:".toList
          "hours > 169:".toList _ (by decide)]
        rw [pyReplace_head_match "hours > 170:".toList "hours > 169:".toList (by decide)]
        rw [pyReplace_skip "hours > 7:".toList "hours > 6:".toList
          "hours > 170:".toList _ (by decide)]
        rw [pyReplace_head_match "hours > 169:".toList "hours > 170:".toList (by decide)]
        rw [ih t htlen hinf1 hinf2]
      · cases s with
        | nil => rfl
        | cons c cs =>
          have hcslen : cs.length ≤ m := by simp at hs; omega
          have hinf1 : ¬ ("hours > 7:".toList <:+: cs) := by
            intro hcon
            exact h1 (List.infix_cons hcon)
          have hinf2 : ¬ ("hours > 170:".toList <:+: cs) := by
            intro hcon
            exact h2 (List.infix_cons hcon)
          rw [pyReplace_cons_nomatch _ _ c cs (nomatch_of_unmatched_head _ c cs hp1)]
          have hA2 : ¬ ("hours > 169:".toList <+:
              c :: pyReplace "hours > 6:".toList "hours > 7:".toList cs) := by
            intro hcon
            rw [show "hours > 169:".toList = 'h' :: "ours > 169:".toList from rfl] at hcon
            obtain ⟨hc, htail⟩ := List.cons_prefix_cons.mp hcon
            have hback : "ours > 169:".toList <+: cs :=
              pyReplace_track "hours > 6:".toList "hours > 7:".toList
                "ours > 169:".toList (by decide) (by decide) (by decide) cs htail
            apply hp2
            rw [show "hours > 169:".toList = 'h' :: "ours > 169:".toList from rfl, ← hc]
            exact List.cons_prefix_cons.mpr ⟨rfl, hback⟩
          rw [pyReplace_cons_nomatch _ _ c _ (nomatch_of_unmatched_head _ c _ hA2)]
          have hB1 : ¬ ("hours > 7:".toList <+:
              c :: pyReplace "hours > 169:".toList "hours > 170:".toList
                (pyReplace "hours > 6:".toList "hours > 7:".toList cs)) := by
            intro hcon
            rw [show "hours > 7:".toList = 'h' :: "ours > 7:".toList from rfl] at hcon
            obtain ⟨hc, htail⟩ := List.cons_prefix_cons.mp hcon
            have hback1 : "ours > 7:".toList <+:
                pyReplace "hours > 6:".toList "hours > 7:".toList cs :=
              pyReplace_track "hours > 169:".toList "hours > 170:".toList
                "ours > 7:".toList (by decide) (by decide) (by decide) _ htail
            have hback2 : "ours > 7:".toList <+: cs :=
              pyReplace_track "hours > 6:".toList "hours > 7:".toList
                "ours > 7:".toList (by decide) (by decide) (by decide) cs hback1
            apply h1
            have hpre : "hours > 7:".toList <+: c :: cs := by
              rw [show "hours > 7:".toList = 'h' :: "ours > 7:".toList from rfl, ← hc]
              exact List.cons_prefix_cons.mpr ⟨rfl, hback2⟩
            exact hpre.isInfix
          rw [pyReplace_cons_nomatch _ _ c _ (nomatch_of_unmatched_head _ c _ hB1)]
          have hB2 : ¬ ("hours > 170:".toList <+:
              c :: pyReplace "hours > 7:".toList "hours > 6:".toList
                (pyReplace "hours > 169:".toList "hours > 170:".toList
                  (pyReplace "hours > 6:".toList "hours > 7:".toList cs))) := by
            intro hcon
            rw [show "hours > 170:".toList = 'h' :: "ours > 170:".toList from rfl] at hcon
            obtain ⟨hc, htail⟩ := List.cons_prefix_cons.mp hcon
            have hback1 : "ours > 170:".toList <+:
                pyReplace "hours > 169:".toList "hours > 170:".toList
                  (pyReplace "hours > 6:".toList "hours > 7:".toList cs) :=
              pyReplace_track "hours > 7:".toList "hours > 6:".toList
                "ours > 170:".toList (by decide) (by decide) (by decide) _ htail
            have hback2 : "ours > 170:".toList <+:
                pyReplace "hours > 6:".toList "hours > 7:".toList cs :=
              pyReplace_track "hours > 169:".toList "hours > 170:".toList
                "ours > 170:".toList (by decide) (by decide) (by decide) _ hback1
            have hback3 : "ours > 170:".toList <+: cs :=
              pyReplace_track "hours > 6:".toList "hours > 7:".toList
                "ours > 170:".toList (by decide) (by decide) (by decide) cs hback2
            apply h2
            have hpre : "hours > 170:".toList <+: c :: cs := by
              rw [show "hours > 170:".toList = 'h' :: "ours > 170:".toList from rfl, ← hc]
              exact List.cons_prefix_cons.mpr ⟨rfl, hback3⟩
            exact hpre.isInfix
          rw [pyReplace_cons_nomatch _ _ c _ (nomatch_of_unmatched_head _ c _ hB2)]
          rw [ih cs hcslen hinf1 hinf2]

-- Machinery for the numeric-assignment fixes (`_fix_increment_timeout`
-- and `_fix_add_retry`, self_heal.py): `re.sub(r"<lit>\d+", "<lit><n>",
-- source)` for a literal prefix followed by one or more digits.

/-- Decimal digits of a natural number (the text produced by inserting
the number into an f-string), accumulator-style with fuel. -/
def natDigitsGo : Nat → Nat → List Char → List Char
  | 0, _, acc => acc
  | fuel + 1, n, acc =>
    if n < 10 then Char.ofNat (48 + n) :: acc
    else natDigitsGo fuel (n / 10) (Char.ofNat (48 + n % 10) :: acc)

/-- Decimal rendering of a natural number, as `str(n)`. -/
def natDigits (n : Nat) : List Char := natDigitsGo (n + 1) n []

/-- Fuelled scanner behind `re.sub(r"<lit>\d+", "<lit><ds>", source)`:
at each position where the literal is followed by at least one digit,
the literal and the maximal digit run are consumed and `lit ++ ds` is
emitted; otherwise the character is copied.  Matches are non-overlapping
and scanning resumes after each match, as in `re.sub`. -/
def numAssignSub (lit ds : List Char) : Nat → List Char → List Char
  | _, [] => []
  | 0, l => l
  | fuel + 1, c :: cs =>
    if lit ≠ [] && lit.isPrefixOf (c :: cs)
        && (cs.drop (lit.length - 1)).takeWhile Char.isDigit ≠ [] then
      lit ++ ds ++ numAssignSub lit ds fuel ((cs.drop (lit.length - 1)).dropWhile Char.isDigit)
    else
      c :: numAssignSub lit ds fuel cs

/-- `re.sub(r"<lit>\d+", "<lit><ds>", s)` over the whole input. -/
def numAssign (lit ds s : List Char) : List Char := numAssignSub lit ds s.length s

/-- `re.search(r"<lit>(\d+)", s)`: the digit run captured at the
leftmost occurrence of the literal followed by at least one digit. -/
def numAssignFind (lit : List Char) : Nat → List Char → Option (List Char)
  | _, [] => none
  | 0, _ => none
  | fuel + 1, c :: cs =>
    if lit ≠ [] && lit.isPrefixOf (c :: cs)
        && (cs.drop (lit.length - 1)).takeWhile Char.isDigit ≠ [] then
      some ((cs.drop (lit.length - 1)).takeWhile Char.isDigit)
    else
      numAssignFind lit fuel cs

/-- Every occurrence of the literal in the text is followed by the digit
run `ds` exactly (so all matched assignments carry the same rendered
value). -/
def numAssignUniform (lit ds : List Char) : List Char → Bool
  | [] => true
  | c :: cs =>
    (!(lit.isPrefixOf (c :: cs)) ||
      ((cs.drop (lit.length - 1)).takeWhile Char.isDigit == ds)) &&
    numAssignUniform lit ds cs

/-- The original timeout read by `_fix_increment_timeout` from the
parser source at fix-creation time (default 20). -/
def increment_timeout_orig (creation : List Char) : Nat :=
  match numAssignFind "timeout: int = ".toList creation.length creation with
  | some run => digitsToNat run
  | none => 20

/-- The `apply` closure of `_fix_increment_timeout`: substitute the
captured-at-creation timeout plus 5 into every `timeout: int = <n>`
assignment of the current source. -/
def increment_timeout_apply (creation source : List Char) : List Char :=
  numAssign "timeout: int = ".toList (natDigits (increment_timeout_orig creation + 5)) source

/-- The `rollback` closure of `_fix_increment_timeout`: substitute the
captured-at-creation timeout back. -/
def increment_timeout_rollback (creation source : List Char) : List Char :=
  numAssign "timeout: int = ".toList (natDigits (increment_timeout_orig creation)) source

/-- The original retry count read by `_fix_add_retry` from the parser
source at fix-creation time (default 3). -/
def add_retry_orig (creation : List Char) : Nat :=
  match numAssignFind "max_retries: int = ".toList creation.length creation with
  | some run => digitsToNat run
  | none => 3

/-- The `apply` closure of `_fix_add_retry`: substitute the
captured-at-creation retry count plus 1. -/
def add_retry_apply (creation source : List Char) : List Char :=
  numAssign "max_retries: int = ".toList (natDigits (add_retry_orig creation + 1)) source

/-- The `rollback` closure of `_fix_add_retry`: substitute the
captured-at-creation retry count back. -/
def add_retry_rollback (creation source : List Char) : List Char :=
  numAssign "max_retries: int = ".toList (natDigits (add_retry_orig creation)) source

/-- The accumulator only grows. -/
theorem natDigitsGo_length : ∀ fuel n acc, acc.length ≤ (natDigitsGo fuel n acc).length := by
  intro fuel
  induction fuel with
  | zero => intro n acc; simp [natDigitsGo]
  | succ f ih =>
    intro n acc
    by_cases h : n < 10
    · simp [natDigitsGo, if_pos h]
    · simp only [natDigitsGo, if_neg h]
      refine le_trans ?_ (ih (n / 10) (Char.ofNat (48 + n % 10) :: acc))
      simp

/-- The decimal rendering is never empty. -/
theorem natDigits_ne_nil (n : Nat) : natDigits n ≠ [] := by
  unfold natDigits
  by_cases h10 : n < 10
  · simp [natDigitsGo, if_pos h10]
  · simp only [natDigitsGo, if_neg h10]
    intro hcon
    have h := natDigitsGo_length n (n / 10) (Char.ofNat (48 + n % 10) :: [])
    rw [hcon] at h
    simp at h

/-- Every character the rendering pushes is a decimal digit. -/
theorem natDigitsGo_digits : ∀ fuel n acc, (∀ c ∈ acc, c.isDigit = true) →
    ∀ c ∈ natDigitsGo fuel n acc, c.isDigit = true := by
  intro fuel
  induction fuel with
  | zero => intro n acc hacc; simpa [natDigitsGo] using hacc
  | succ f ih =>
    intro n acc hacc
    have hd : ∀ m, m < 10 → (Char.ofNat (48 + m)).isDigit = true := by
      intro m hm
      interval_cases m <;> decide
    by_cases h : n < 10
    · intro c hc
      simp only [natDigitsGo, if_pos h] at hc
      rcases List.mem_cons.mp hc with h1 | h2
      · subst h1; exact hd n h
      · exact hacc c h2
    · intro c hc
      simp only [natDigitsGo, if_neg h] at hc
      refine ih (n / 10) _ ?_ c hc
      intro c' hc'
      rcases List.mem_cons.mp hc' with h1 | h2
      · subst h1; exact hd (n % 10) (Nat.mod_lt _ (by norm_num))
      · exact hacc c' h2

/-- The decimal rendering consists of decimal digits. -/
theorem natDigits_digits (n : Nat) : ∀ c ∈ natDigits n, c.isDigit = true :=
  natDigitsGo_digits (n + 1) n [] (by simp)

/-- The head of `dropWhile` fails the predicate. -/
theorem head_dropWhile_false (p : Char → Bool) :
    ∀ (l : List Char) (c : Char), (l.dropWhile p).head? = some c → p c = false := by
  intro l
  induction l with
  | nil => intro c h; simp at h
  | cons a l' ih =>
    intro c h
    by_cases hp : p a = true
    · rw [List.dropWhile_cons, if_pos hp] at h
      exact ih c h
    · rw [List.dropWhile_cons, if_neg hp] at h
      have hac : a = c := by simpa using h
      subst hac
      simpa using hp

/-- `takeWhile`/`dropWhile` split of an all-satisfying block followed by
a failing head. -/
theorem takeWhile_append_all (p : Char → Bool) :
    ∀ (u t : List Char), (∀ c ∈ u, p c = true) →
      (∀ (c : Char), t.head? = some c → p c = false) →
      (u ++ t).takeWhile p = u ∧ (u ++ t).dropWhile p = t := by
  intro u
  induction u with
  | nil =>
    intro t _ ht
    cases t with
    | nil => simp
    | cons d t' =>
      have hd := ht d rfl
      constructor
      · simp [List.takeWhile_cons, hd]
      · simp [List.dropWhile_cons, hd]
  | cons a u' ih =>
    intro t hu ht
    have ha : p a = true := hu a (by simp)
    have hih := ih t (fun c hc => hu c (by simp [hc])) ht
    constructor
    · simp [List.takeWhile_cons, ha, hih.1]
    · simp [List.dropWhile_cons, ha, hih.2]

/-- `dropWhile` as a `drop` past the `takeWhile` block. -/
theorem dropWhile_as_drop (p : Char → Bool) (l : List Char) :
    l.dropWhile p = l.drop (l.takeWhile p).length := by
  calc l.dropWhile p
      = (l.takeWhile p ++ l.dropWhile p).drop (l.takeWhile p).length := by
        rw [List.drop_left]
    _ = l.drop (l.takeWhile p).length := by rw [List.takeWhile_append_dropWhile]

/-- `dropWhile` never lengthens a list. -/
theorem length_dropWhile_le (p : Char → Bool) (l : List Char) :
    (l.dropWhile p).length ≤ l.length := by
  rw [dropWhile_as_drop]
  simp [List.length_drop]

/-- The assignment scan does not depend on the fuel once the fuel covers
the input length. -/
theorem numAssignSub_fuel_irrel (lit ds : List Char) :
    ∀ n s, s.length ≤ n → ∀ f1 f2, s.length ≤ f1 → s.length ≤ f2 →
      numAssignSub lit ds f1 s = numAssignSub lit ds f2 s := by
  intro n
  induction n with
  | zero =>
    intro s hs f1 f2 _ _
    have hnil : s = [] := List.eq_nil_of_length_eq_zero (Nat.le_zero.mp hs)
    subst hnil
    simp [numAssignSub]
  | succ m ih =>
    intro s hs f1 f2 h1 h2
    cases s with
    | nil => simp [numAssignSub]
    | cons c cs =>
      cases f1 with
      | zero => simp at h1
      | succ a =>
        cases f2 with
        | zero => simp at h2
        | succ b =>
          have hcs : cs.length ≤ m := by simp at hs; omega
          have ha : cs.length ≤ a := by simp at h1; omega
          have hb2 : cs.length ≤ b := by simp at h2; omega
          by_cases hg : (decide (lit ≠ []) && lit.isPrefixOf (c :: cs) &&
              decide ((cs.drop (lit.length - 1)).takeWhile Char.isDigit ≠ [])) = true
          · simp only [numAssignSub, if_pos hg]
            have hdl : ((cs.drop (lit.length - 1)).dropWhile Char.isDigit).length ≤ cs.length := by
              refine le_trans (length_dropWhile_le _ _) ?_
              simp [List.length_drop]
            rw [ih ((cs.drop (lit.length - 1)).dropWhile Char.isDigit)
              (by omega) a b (by omega) (by omega)]
          · simp only [numAssignSub, if_neg hg]
            congr 1
            exact ih cs hcs a b ha hb2

/-- Evaluate one non-matching step of `numAssign`. -/
theorem numAssign_nomatch (lit ds : List Char) (c : Char) (cs : List Char)
    (h : ¬ (decide (lit ≠ []) && lit.isPrefixOf (c :: cs) &&
        decide ((cs.drop (lit.length - 1)).takeWhile Char.isDigit ≠ [])) = true) :
    numAssign lit ds (c :: cs) = c :: numAssign lit ds cs := by
  unfold numAssign
  simp only [List.length_cons, numAssignSub, if_neg h]

/-- Evaluate the matching head step of `numAssign`. -/
theorem numAssign_match (lit ds : List Char) (hlit : lit ≠ []) (rest : List Char)
    (hrun : rest.takeWhile Char.isDigit ≠ []) :
    numAssign lit ds (lit ++ rest) =
      lit ++ ds ++ numAssign lit ds (rest.dropWhile Char.isDigit) := by
  cases lit with
  | nil => exact absurd rfl hlit
  | cons c lt =>
    unfold numAssign
    have hl : (c :: lt).length - 1 = lt.length := by simp
    have hguard : (decide ((c :: lt) ≠ []) && (c :: lt).isPrefixOf (c :: (lt ++ rest)) &&
        decide (((lt ++ rest).drop ((c :: lt).length - 1)).takeWhile Char.isDigit ≠ [])) = true := by
      rw [hl, List.drop_left]
      simp only [Bool.and_eq_true, decide_eq_true_eq]
      refine ⟨⟨by simp, ?_⟩, hrun⟩
      exact List.isPrefixOf_iff_prefix.mpr (List.prefix_append (c :: lt) rest)
    show numAssignSub (c :: lt) ds ((c :: lt) ++ rest).length ((c :: lt) ++ rest) = _
    rw [show ((c :: lt) ++ rest : List Char) = c :: (lt ++ rest) from rfl]
    rw [show (c :: (lt ++ rest)).length = (lt ++ rest).length + 1 from by simp]
    simp only [numAssignSub, if_pos hguard]
    rw [hl, List.drop_left]
    have hle : (rest.dropWhile Char.isDigit).length ≤ (lt ++ rest).length := by
      refine le_trans (length_dropWhile_le _ _) ?_
      simp [List.length_append]
    rw [numAssignSub_fuel_irrel (c :: lt) ds (rest.dropWhile Char.isDigit).length
      (rest.dropWhile Char.isDigit) le_rfl (lt ++ rest).length
      (rest.dropWhile Char.isDigit).length hle le_rfl]

/-- The head of the scanned output is the head of the input or the head
of the literal. -/
theorem numAssign_head (lit ds s : List Char) :
    (numAssign lit ds s).head? = s.head? ∨ (numAssign lit ds s).head? = lit.head? := by
  cases s with
  | nil => left; rfl
  | cons c cs =>
    by_cases hg : (decide (lit ≠ []) && lit.isPrefixOf (c :: cs) &&
        decide ((cs.drop (lit.length - 1)).takeWhile Char.isDigit ≠ [])) = true
    · right
      have hlit : lit ≠ [] := by
        have := ((Bool.and_eq_true _ _).mp ((Bool.and_eq_true _ _).mp hg).1).1
        simpa using this
      unfold numAssign
      simp only [List.length_cons, numAssignSub, if_pos hg]
      cases lit with
      | nil => exact absurd rfl hlit
      | cons l0 lt => rfl
    · left
      unfold numAssign
      simp only [List.length_cons, numAssignSub, if_neg hg]
      rfl

/-- Uniformity passes to the tail. -/
theorem numAssignUniform_tail (lit ds : List Char) (c : Char) (cs : List Char)
    (h : numAssignUniform lit ds (c :: cs) = true) : numAssignUniform lit ds cs = true := by
  simp only [numAssignUniform, Bool.and_eq_true] at h
  exact h.2

/-- Uniformity passes to any suffix. -/
theorem numAssignUniform_drop (lit ds : List Char) :
    ∀ k s, numAssignUniform lit ds s = true → numAssignUniform lit ds (s.drop k) = true := by
  intro k
  induction k with
  | zero => intro s h; simpa using h
  | succ j ih =>
    intro s h
    cases s with
    | nil => simpa using h
    | cons c cs =>
      rw [List.drop_succ_cons]
      exact ih cs (numAssignUniform_tail lit ds c cs h)

/-- At a head occurrence of the literal, uniformity pins the digit run. -/
theorem numAssignUniform_head_run (lit ds rest : List Char) (hlit : lit ≠ [])
    (h : numAssignUniform lit ds (lit ++ rest) = true) :
    rest.takeWhile Char.isDigit = ds := by
  cases lit with
  | nil => exact absurd rfl hlit
  | cons c lt =>
    rw [show ((c :: lt) ++ rest : List Char) = c :: (lt ++ rest) from rfl] at h
    simp only [numAssignUniform, Bool.and_eq_true] at h
    have hpre : (c :: lt).isPrefixOf (c :: (lt ++ rest)) = true :=
      List.isPrefixOf_iff_prefix.mpr (List.prefix_append (c :: lt) rest)
    have h2 := h.1
    rw [hpre] at h2
    simp only [Bool.not_true, Bool.false_or, beq_iff_eq] at h2
    have hl : (c :: lt).length - 1 = lt.length := by simp
    rw [hl, List.drop_left] at h2
    exact h2

/-- A suffix of the literal prefixing the scanned output already
prefixed the input (under uniformity: every literal occurrence is a real
match, so the scan either copies the character under scrutiny or emits a
block headed by the whole literal). -/
theorem numAssign_prefix_transfer (lit ds0 ds1 : List Char) (hlit : lit ≠ [])
    (hds0 : ds0 ≠ []) :
    ∀ n s, s.length ≤ n → numAssignUniform lit ds0 s = true →
      ∀ j, j < lit.length → lit.drop j <+: numAssign lit ds1 s → lit.drop j <+: s := by
  intro n
  induction n with
  | zero =>
    intro s hs _ j hj hpre
    have hnil : s = [] := List.eq_nil_of_length_eq_zero (Nat.le_zero.mp hs)
    subst hnil
    have h0 : lit.drop j = [] := List.prefix_nil.mp (by simpa [numAssign, numAssignSub] using hpre)
    have := congrArg List.length h0
    simp [List.length_drop] at this
    omega
  | succ m ih =>
    intro s hs huni j hj hpre
    by_cases hp : lit <+: s
    · obtain ⟨rest, hrest⟩ := hp
      have hrun : rest.takeWhile Char.isDigit = ds0 :=
        numAssignUniform_head_run lit ds0 rest hlit (by rw [hrest]; exact huni)
      have heq : numAssign lit ds1 s =
          lit ++ ds1 ++ numAssign lit ds1 (rest.dropWhile Char.isDigit) := by
        rw [← hrest]
        exact numAssign_match lit ds1 hlit rest (by rw [hrun]; exact hds0)
      rw [heq, List.append_assoc] at hpre
      have h1 : lit.drop j <+: lit := by
        apply prefix_of_append_of_le hpre
        simp [List.length_drop]
      exact h1.trans ⟨rest, hrest⟩
    · cases s with
      | nil =>
        have h0 : lit.drop j = [] :=
          List.prefix_nil.mp (by simpa [numAssign, numAssignSub] using hpre)
        have := congrArg List.length h0
        simp [List.length_drop] at this
        omega
      | cons c cs =>
        have hg : ¬ (decide (lit ≠ []) && lit.isPrefixOf (c :: cs) &&
            decide ((cs.drop (lit.length - 1)).takeWhile Char.isDigit ≠ [])) = true := by
          intro hcon
          apply hp
          have := ((Bool.and_eq_true _ _).mp ((Bool.and_eq_true _ _).mp hcon).1).2
          simpa [List.isPrefixOf_iff_prefix] using this
        rw [numAssign_nomatch lit ds1 c cs hg] at hpre
        have hsplit : lit.drop j = lit[j] :: lit.drop (j + 1) := List.drop_eq_getElem_cons hj
        rw [hsplit] at hpre
        obtain ⟨hc, htail⟩ := List.cons_prefix_cons.mp hpre
        by_cases hend : j + 1 < lit.length
        · have huni' := numAssignUniform_tail lit ds0 c cs huni
          have htail2 : lit.drop (j + 1) <+: cs :=
            ih cs (by simp at hs; omega) huni' (j + 1) hend htail
          rw [hsplit, hc]
          exact List.cons_prefix_cons.mpr ⟨rfl, htail2⟩
        · have hdone : lit.drop (j + 1) = [] := List.drop_eq_nil_of_le (by omega)
          rw [hsplit, hc, hdone]
          exact List.cons_prefix_cons.mpr ⟨rfl, List.nil_prefix⟩

/-- Round trip of the numeric-assignment substitution: when every
occurrence of the literal in the source carries the same rendered value
`ds0`, substituting `ds1` everywhere and then substituting `ds0` back
restores the source. -/
theorem numAssign_roundtrip (lit ds0 ds1 : List Char) (hlit : lit ≠ [])
    (hds0 : ds0 ≠ []) (hds1 : ds1 ≠ [])
    (hd1 : ∀ c ∈ ds1, c.isDigit = true)
    (hlh : ∀ c, lit.head? = some c → c.isDigit = false) :
    ∀ n s, s.length ≤ n → numAssignUniform lit ds0 s = true →
      numAssign lit ds0 (numAssign lit ds1 s) = s := by
  intro n
  induction n with
  | zero =>
    intro s hs _
    have hnil : s = [] := List.eq_nil_of_length_eq_zero (Nat.le_zero.mp hs)
    subst hnil
    rfl
  | succ m ih =>
    intro s hs huni
    by_cases hp : lit <+: s
    · obtain ⟨rest, hrest⟩ := hp
      have hrun : rest.takeWhile Char.isDigit = ds0 :=
        numAssignUniform_head_run lit ds0 rest hlit (by rw [hrest]; exact huni)
      have hA : numAssign lit ds1 s =
          lit ++ ds1 ++ numAssign lit ds1 (rest.dropWhile Char.isDigit) := by
        rw [← hrest]
        exact numAssign_match lit ds1 hlit rest (by rw [hrun]; exact hds0)
      have hsplitR : (ds1 ++ numAssign lit ds1 (rest.dropWhile Char.isDigit)).takeWhile
            Char.isDigit = ds1 ∧
          (ds1 ++ numAssign lit ds1 (rest.dropWhile Char.isDigit)).dropWhile
            Char.isDigit = numAssign lit ds1 (rest.dropWhile Char.isDigit) := by
        apply takeWhile_append_all Char.isDigit ds1 _ hd1
        intro c hc
        rcases numAssign_head lit ds1 (rest.dropWhile Char.isDigit) with hh | hh
        · rw [hh] at hc
          exact head_dropWhile_false Char.isDigit rest c hc
        · rw [hh] at hc
          exact hlh c hc
      rw [hA, List.append_assoc]
      rw [numAssign_match lit ds0 hlit (ds1 ++ numAssign lit ds1 (rest.dropWhile Char.isDigit))
        (by rw [hsplitR.1]; exact hds1)]
      rw [hsplitR.2]
      have hu1 : numAssignUniform lit ds0 rest = true := by
        have hdrop := numAssignUniform_drop lit ds0 lit.length s huni
        rw [← hrest, List.drop_left] at hdrop
        exact hdrop
      have huni' : numAssignUniform lit ds0 (rest.dropWhile Char.isDigit) = true := by
        rw [dropWhile_as_drop]
        exact numAssignUniform_drop lit ds0 _ rest hu1
      have hlen' : (rest.dropWhile Char.isDigit).length ≤ m := by
        have h1 : (rest.dropWhile Char.isDigit).length ≤ rest.length :=
          length_dropWhile_le _ _
        have h2 := congrArg List.length hrest
        simp [List.length_append] at h2
        have h3 : 1 ≤ lit.length := List.length_pos.mpr hlit
        omega
      rw [ih (rest.dropWhile Char.isDigit) hlen' huni']
      rw [← hrest, List.append_assoc]
      congr 1
      rw [← hrun]
      exact List.takeWhile_append_dropWhile Char.isDigit rest
    · cases s with
      | nil => rfl
      | cons c cs =>
        have hg1 : ¬ (decide (lit ≠ []) && lit.isPrefixOf (c :: cs) &&
            decide ((cs.drop (lit.length - 1)).takeWhile Char.isDigit ≠ [])) = true := by
          intro hcon
          apply hp
          have := ((Bool.and_eq_true _ _).mp ((Bool.and_eq_true _ _).mp hcon).1).2
          simpa [List.isPrefixOf_iff_prefix] using this
        rw [numAssign_nomatch lit ds1 c cs hg1]
        have hnp2 : ¬ (lit <+: c :: numAssign lit ds1 cs) := by
          intro hcon
          have hstep : numAssign lit ds1 (c :: cs) = c :: numAssign lit ds1 cs :=
            numAssign_nomatch lit ds1 c cs hg1
          have htr := numAssign_prefix_transfer lit ds0 ds1 hlit hds0
            (c :: cs).length (c :: cs) le_rfl huni 0 (List.length_pos.mpr hlit)
            (by rw [List.drop_zero, hstep]; exact hcon)
          exact hp (by simpa using htr)
        have hg2 : ¬ (decide (lit ≠ []) && lit.isPrefixOf (c :: numAssign lit ds1 cs) &&
            decide (((numAssign lit ds1 cs).drop (lit.length - 1)).takeWhile
              Char.isDigit ≠ [])) = true := by
          intro hcon
          apply hnp2
          have := ((Bool.and_eq_true _ _).mp ((Bool.and_eq_true _ _).mp hcon).1).2
          simpa [List.isPrefixOf_iff_prefix] using this
        rw [numAssign_nomatch lit ds0 c (numAssign lit ds1 cs) hg2]
        rw [ih cs (by simp at hs; omega) (numAssignUniform_tail lit ds0 c cs huni)]

-- Machinery for `_fix_add_date_format` (self_heal.py): `apply` rewrites
-- every occurrence of the format-list head (e.g. `TIME_FORMATS = [`) to
-- itself followed by an inserted line; `rollback` removes, at every
-- occurrence, the marker line `\n    "<fmt>",  # Added by self-heal:`
-- together with the rest of that line (the regex `.*`, which stops
-- before the next newline).  The replacement template and the escaped
-- format are modelled literally, as the template is inserted verbatim
-- for backslash-free formats and `re.escape` makes the format match
-- itself literally.

/-- The text inserted after the list head by `_fix_add_date_format.apply`:
newline, indented quoted format, and the self-heal comment carrying the
failing time string. -/
def healInsertion (fmt timeStr : List Char) : List Char :=
  "\n    \"".toList ++ fmt ++ "\",  # Added by self-heal: ".toList ++ timeStr

/-- The marker matched by `_fix_add_date_format.rollback` (everything of
the inserted line up to the regex `.*`). -/
def healMarker (fmt : List Char) : List Char :=
  "\n    \"".toList ++ fmt ++ "\",  # Added by self-heal:".toList

/-- Fuelled scanner behind the rollback `re.sub(pat + ".*", "", s)`: at
each occurrence of the marker, the marker and the rest of the line (all
characters up to the next newline, exclusive) are removed; scanning
resumes at the newline. -/
def healRemoveGo (pat : List Char) : Nat → List Char → List Char
  | _, [] => []
  | 0, l => l
  | fuel + 1, c :: cs =>
    if pat ≠ [] && pat.isPrefixOf (c :: cs) then
      healRemoveGo pat fuel ((cs.drop (pat.length - 1)).dropWhile (fun d => !(d == '\n')))
    else
      c :: healRemoveGo pat fuel cs

/-- The rollback line-removal over the whole input. -/
def healRemove (pat s : List Char) : List Char := healRemoveGo pat s.length s

/-- The `apply` closure of `_fix_add_date_format` for a given format
list head: `re.sub(r"(<listHead>)", "\1" + insertion, source)`. -/
def add_date_format_apply (listHead fmt timeStr source : List Char) : List Char :=
  pyReplace listHead (listHead ++ healInsertion fmt timeStr) source

/-- The `rollback` closure of `_fix_add_date_format`: remove every
self-heal marker line for the format. -/
def add_date_format_rollback (fmt source : List Char) : List Char :=
  healRemove (healMarker fmt) source

/-- The insertion is the marker followed by a space and the time string. -/
theorem healInsertion_eq (fmt timeStr : List Char) :
    healInsertion fmt timeStr = healMarker fmt ++ (' ' :: timeStr) := by
  unfold healInsertion healMarker
  rw [show ("\",  # Added by self-heal: ".toList : List Char) =
      "\",  # Added by self-heal:".toList ++ [' '] from by decide]
  simp

/-- The marker starts with a newline. -/
theorem healMarker_cons (fmt : List Char) :
    healMarker fmt = '\n' :: (healMarker fmt).drop 1 := by
  unfold healMarker
  rw [show ("\n    \"".toList : List Char) = '\n' :: "    \"".toList from rfl]
  simp

/-- The marker tail is nonempty. -/
theorem healMarker_drop_pos (fmt : List Char) : 0 < ((healMarker fmt).drop 1).length := by
  unfold healMarker
  simp [List.length_drop, List.length_append]

/-- Membership in the marker tail decomposes into the constant pieces
and the format. -/
theorem healMarker_drop_mem (fmt : List Char) (c : Char)
    (hc : c ∈ (healMarker fmt).drop 1) :
    c ∈ fmt ∨ c ∈ ("    \"".toList : List Char) ∨
      c ∈ ("\",  # Added by self-heal:".toList : List Char) := by
  unfold healMarker at hc
  rw [show ("\n    \"".toList : List Char) = '\n' :: "    \"".toList from rfl] at hc
  simp only [List.cons_append, List.drop_succ_cons, List.drop_zero, List.append_assoc,
    List.mem_append] at hc
  tauto

/-- The line-removal scan does not depend on the fuel once the fuel
covers the input length. -/
theorem healRemoveGo_fuel_irrel (pat : List Char) :
    ∀ n s, s.length ≤ n → ∀ f1 f2, s.length ≤ f1 → s.length ≤ f2 →
      healRemoveGo pat f1 s = healRemoveGo pat f2 s := by
  intro n
  induction n with
  | zero =>
    intro s hs f1 f2 _ _
    have hnil : s = [] := List.eq_nil_of_length_eq_zero (Nat.le_zero.mp hs)
    subst hnil
    simp [healRemoveGo]
  | succ m ih =>
    intro s hs f1 f2 h1 h2
    cases s with
    | nil => simp [healRemoveGo]
    | cons c cs =>
      cases f1 with
      | zero => simp at h1
      | succ a =>
        cases f2 with
        | zero => simp at h2
        | succ b =>
          have hcs : cs.length ≤ m := by simp at hs; omega
          have ha : cs.length ≤ a := by simp at h1; omega
          have hb2 : cs.length ≤ b := by simp at h2; omega
          by_cases hg : (decide (pat ≠ []) && pat.isPrefixOf (c :: cs)) = true
          · simp only [healRemoveGo, if_pos hg]
            have hdl : ((cs.drop (pat.length - 1)).dropWhile (fun d => !(d == '\n'))).length ≤
                cs.length := by
              refine le_trans (length_dropWhile_le _ _) ?_
              simp [List.length_drop]
            exact ih ((cs.drop (pat.length - 1)).dropWhile (fun d => !(d == '\n')))
              (by omega) a b (by omega) (by omega)
          · simp only [healRemoveGo, if_neg hg]
            congr 1
            exact ih cs hcs a b ha hb2

/-- Evaluate one non-matching step of `healRemove`. -/
theorem healRemove_cons_nomatch (pat : List Char) (c : Char) (cs : List Char)
    (h : ¬ (decide (pat ≠ []) && pat.isPrefixOf (c :: cs)) = true) :
    healRemove pat (c :: cs) = c :: healRemove pat cs := by
  unfold healRemove
  simp only [List.length_cons, healRemoveGo, if_neg h]

/-- A block whose characters all differ from the pattern head passes
through the line-removal scan unchanged. -/
theorem healRemove_skip (pat : List Char) :
    ∀ u X, (∀ c ∈ u, pat.head? ≠ some c) →
      healRemove pat (u ++ X) = u ++ healRemove pat X := by
  intro u
  induction u with
  | nil => intro X _; simp
  | cons c u' ihu =>
    intro X hu
    have hnm : ¬ (decide (pat ≠ []) && pat.isPrefixOf (c :: (u' ++ X))) = true := by
      intro hcon
      rcases pat with _ | ⟨p0, pt⟩
      · simp at hcon
      · have hpre : (p0 :: pt) <+: c :: (u' ++ X) := by
          simpa [List.isPrefixOf_iff_prefix] using ((Bool.and_eq_true _ _).mp hcon).2
        obtain ⟨hc, _⟩ := List.cons_prefix_cons.mp hpre
        exact hu c (by simp) (by simp [hc])
    rw [List.cons_append, healRemove_cons_nomatch pat c (u' ++ X) hnm,
      ihu X (fun d hd => hu d (by simp [hd]))]
    simp

/-- Evaluate the matching head step of `healRemove`: the pattern and the
rest of the line are removed and the scan resumes at the newline. -/
theorem healRemove_match (pat : List Char) (hpat : pat ≠ []) (w : List Char) :
    healRemove pat (pat ++ w) =
      healRemove pat (w.dropWhile (fun d => !(d == '\n'))) := by
  cases pat with
  | nil => exact absurd rfl hpat
  | cons c pt =>
    unfold healRemove
    have hl : (c :: pt).length - 1 = pt.length := by simp
    have hguard : (decide ((c :: pt) ≠ []) && (c :: pt).isPrefixOf (c :: (pt ++ w))) = true := by
      simp only [Bool.and_eq_true, decide_eq_true_eq]
      exact ⟨by simp, List.isPrefixOf_iff_prefix.mpr (List.prefix_append (c :: pt) w)⟩
    rw [show ((c :: pt) ++ w : List Char) = c :: (pt ++ w) from rfl]
    rw [show (c :: (pt ++ w)).length = (pt ++ w).length + 1 from by simp]
    simp only [healRemoveGo, if_pos hguard]
    rw [hl, List.drop_left]
    have hle : (w.dropWhile (fun d => !(d == '\n'))).length ≤ (pt ++ w).length := by
      refine le_trans (length_dropWhile_le _ _) ?_
      simp [List.length_append]
    rw [healRemoveGo_fuel_irrel (c :: pt)
      (w.dropWhile (fun d => !(d == '\n'))).length
      (w.dropWhile (fun d => !(d == '\n'))) le_rfl (pt ++ w).length
      (w.dropWhile (fun d => !(d == '\n'))).length hle le_rfl]

/-- The list-head boundary condition passes to suffixes. -/
theorem lHeads_drop (L s : List Char) (a : Nat)
    (h : ∀ k, k < s.length → L <+: s.drop k →
      ((s.drop k).drop L.length).head? = none ∨
      ((s.drop k).drop L.length).head? = some '\n') :
    ∀ k, k < (s.drop a).length → L <+: (s.drop a).drop k →
      (((s.drop a).drop k).drop L.length).head? = none ∨
      (((s.drop a).drop k).drop L.length).head? = some '\n' := by
  intro k hk hp
  have h2 : (s.drop a).drop k = s.drop (a + k) := by rw [List.drop_drop]
  rw [h2] at hp ⊢
  refine h (a + k) ?_ hp
  simp [List.length_drop] at hk
  omega

/-- Round trip of the date-format fix, by strong induction on the
source: at a list-head occurrence the insertion is emitted and then
removed again (the `.*` stops exactly at the newline that followed the
list head in the source), while at any other position the emitted
character passes through both scans, the rollback being unable to match
the marker there because the marker does not occur in the source. -/
theorem add_date_format_aux (L fmt timeStr : List Char) (hL : L ≠ [])
    (hLn : ∀ c ∈ L, c ≠ '\n')
    (hts : ∀ c ∈ timeStr, c ≠ '\n')
    (htrack : ∀ c ∈ (healMarker fmt).drop 1, L.head? ≠ some c) :
    ∀ n s, s.length ≤ n →
      (∀ k, k < s.length → L <+: s.drop k →
        ((s.drop k).drop L.length).head? = none ∨
        ((s.drop k).drop L.length).head? = some '\n') →
      ¬ (healMarker fmt <:+: s) →
      healRemove (healMarker fmt)
        (pyReplace L (L ++ healInsertion fmt timeStr) s) = s := by
  intro n
  induction n with
  | zero =>
    intro s hs _ _
    have hnil : s = [] := List.eq_nil_of_length_eq_zero (Nat.le_zero.mp hs)
    subst hnil
    rfl
  | succ m ih =>
    intro s hs hheads hnm
    have hmhead : (healMarker fmt).head? = some '\n' := by
      rw [healMarker_cons fmt]
      rfl
    by_cases hp : L <+: s
    · obtain ⟨t, ht⟩ := hp
      have hA : pyReplace L (L ++ healInsertion fmt timeStr) s =
          L ++ (healInsertion fmt timeStr ++
            pyReplace L (L ++ healInsertion fmt timeStr) t) := by
        rw [← ht, pyReplace_head_match (L ++ healInsertion fmt timeStr) L hL t,
          List.append_assoc]
      rw [hA]
      rw [healRemove_skip (healMarker fmt) L _ (fun c hc => by
        rw [hmhead]
        intro hcon
        exact hLn c hc (Option.some_inj.mp hcon).symm)]
      nth_rewrite 1 [healInsertion_eq fmt timeStr]
      rw [List.append_assoc]
      rw [healRemove_match (healMarker fmt) (by rw [healMarker_cons fmt]; simp) _]
      -- the head of the transformed tail: nothing, or the newline of the source
      have hthead : t.head? = none ∨ t.head? = some '\n' := by
        have h0 := hheads 0 ?_ ?_
        · rw [List.drop_zero, ← ht, List.drop_left] at h0
          exact h0
        · have := congrArg List.length ht
          simp [List.length_append] at this
          have hl1 : 1 ≤ L.length := List.length_pos.mpr hL
          simp
          omega
        · rw [List.drop_zero]
          exact ⟨t, ht⟩
      have hdw : ((' ' :: timeStr) ++
          pyReplace L (L ++ healInsertion fmt timeStr) t).dropWhile
            (fun d => !(d == '\n')) =
          pyReplace L (L ++ healInsertion fmt timeStr) t := by
        refine (takeWhile_append_all _ (' ' :: timeStr) _ ?_ ?_).2
        · intro c hc
          rcases List.mem_cons.mp hc with h1 | h2
          · subst h1; decide
          · simpa using hts c h2
        · intro c hc
          cases t with
          | nil => simp [pyReplace, pyReplaceGo] at hc
          | cons t0 t' =>
            have ht0 : t0 = '\n' := by
              rcases hthead with h1 | h1
              · simp at h1
              · simpa using h1
            subst ht0
            have hnmL : ¬ (decide (L ≠ []) && L.isPrefixOf ('\n' :: t')) = true := by
              intro hcon
              have hpre : L <+: '\n' :: t' := by
                simpa [List.isPrefixOf_iff_prefix] using ((Bool.and_eq_true _ _).mp hcon).2
              cases L with
              | nil => exact hL rfl
              | cons l0 lt =>
                obtain ⟨hc0, _⟩ := List.cons_prefix_cons.mp hpre
                exact hLn l0 (by simp) hc0
            rw [pyReplace_cons_nomatch L _ '\n' t' hnmL] at hc
            have hcn : '\n' = c := by simpa using hc
            subst hcn
            decide
      rw [hdw]
      have htlen : t.length ≤ m := by
        have := congrArg List.length ht
        simp [List.length_append] at this
        have hl1 : 1 ≤ L.length := List.length_pos.mpr hL
        omega
      have hheads' : ∀ k, k < t.length → L <+: t.drop k →
          ((t.drop k).drop L.length).head? = none ∨
          ((t.drop k).drop L.length).head? = some '\n' := by
        have hts' : t = s.drop L.length := by rw [← ht, List.drop_left]
        rw [hts']
        exact lHeads_drop L s L.length hheads
      have hnm' : ¬ (healMarker fmt <:+: t) := by
        intro hcon
        exact hnm (hcon.trans (show t <:+ s from ⟨L, ht⟩).isInfix)
      rw [ih t htlen hheads' hnm']
      rw [← ht]
    · cases s with
      | nil => rfl
      | cons c cs =>
        have hgL : ¬ (decide (L ≠ []) && L.isPrefixOf (c :: cs)) = true := by
          intro hcon
          apply hp
          simpa [List.isPrefixOf_iff_prefix] using ((Bool.and_eq_true _ _).mp hcon).2
        rw [pyReplace_cons_nomatch L _ c cs hgL]
        have hnmM : ¬ (decide ((healMarker fmt) ≠ []) && (healMarker fmt).isPrefixOf
            (c :: pyReplace L (L ++ healInsertion fmt timeStr) cs)) = true := by
          intro hcon
          have hpre : healMarker fmt <+: c ::
              pyReplace L (L ++ healInsertion fmt timeStr) cs := by
            simpa [List.isPrefixOf_iff_prefix] using ((Bool.and_eq_true _ _).mp hcon).2
          rw [healMarker_cons fmt] at hpre
          obtain ⟨hc, htail⟩ := List.cons_prefix_cons.mp hpre
          have hLhead : (L ++ healInsertion fmt timeStr).head? = L.head? := by
            cases L with
            | nil => exact absurd rfl hL
            | cons l0 lt => rfl
          have hback : (healMarker fmt).drop 1 <+: cs := by
            refine pyReplace_track L (L ++ healInsertion fmt timeStr)
              ((healMarker fmt).drop 1) ?_ (healMarker_drop_pos fmt) ?_ cs htail
            · cases L with
              | nil => exact absurd rfl hL
              | cons l0 lt => simp
            · intro k hk
              rw [List.drop_eq_getElem_cons hk, hLhead]
              have hmem : ((healMarker fmt).drop 1)[k] ∈ (healMarker fmt).drop 1 :=
                List.getElem_mem hk
              intro hcon2
              exact htrack _ hmem hcon2.symm
          apply hnm
          have hpre2 : healMarker fmt <+: c :: cs := by
            rw [healMarker_cons fmt, ← hc]
            exact List.cons_prefix_cons.mpr ⟨rfl, hback⟩
          exact hpre2.isInfix
        rw [healRemove_cons_nomatch (healMarker fmt) c _ hnmM]
        have hheads' : ∀ k, k < cs.length → L <+: cs.drop k →
            ((cs.drop k).drop L.length).head? = none ∨
            ((cs.drop k).drop L.length).head? = some '\n' := by
          have hcs' : cs = (c :: cs).drop 1 := rfl
          rw [hcs']
          exact lHeads_drop L (c :: cs) 1 hheads
        have hnm' : ¬ (healMarker fmt <:+: cs) := by
          intro hcon
          exact hnm (List.infix_cons hcon)
        rw [ih cs (by simp at hs; omega) hheads' hnm']

/-- Packaged round trip of the date-format fix, with the tracker
condition reduced to per-piece membership facts. -/
theorem add_date_format_roundtrip_of (L fmt timeStr s : List Char) (hL : L ≠ [])
    (hLn : ∀ c ∈ L, c ≠ '\n')
    (hfmt : ∀ c ∈ fmt, L.head? ≠ some c)
    (hc1 : ∀ c ∈ ("    \"".toList : List Char), L.head? ≠ some c)
    (hc2 : ∀ c ∈ ("\",  # Added by self-heal:".toList : List Char), L.head? ≠ some c)
    (hts : ∀ c ∈ timeStr, c ≠ '\n')
    (hheads : ∀ k, k < s.length → L <+: s.drop k →
      ((s.drop k).drop L.length).head? = none ∨
      ((s.drop k).drop L.length).head? = some '\n')
    (hnm : ¬ (healMarker fmt <:+: s)) :
    add_date_format_rollback fmt (add_date_format_apply L fmt timeStr s) = s := by
  unfold add_date_format_apply add_date_format_rollback
  apply add_date_format_aux L fmt timeStr hL hLn hts ?_ s.length s le_rfl hheads hnm
  intro c hc
  rcases healMarker_drop_mem fmt c hc with h | h | h
  · exact hfmt c h
  · exact hc1 c h
  · exact hc2 c h

/-- C3 (corrected and amended): round trip of every fix strategy in the
catalog.  For each of the eight strategies, `apply` followed immediately
by `rollback` restores the source text byte-identically under a
per-strategy freshness condition on the pre-apply text; without such a
condition the round trip can fail (see the counterexample).  The
conditions are: for `increment_timeout` and `add_retry_attempt`, every
occurrence of the assignment literal carries exactly the rendered value
read at fix creation; for `extend_wait_time`, `add_section_wait`,
`relax_section_regex`, `broaden_percentage_regex` and
`increase_validation_buffer`, the post-apply replacement token does not
already occur in the text; for `add_date_format` (any of the three
format lists), the self-heal marker line for the format does not already
occur, the format avoids the list head's initial letter, the time string
has no newline, and every occurrence of the list head ends its line. -/
theorem fix_catalog_roundtrip :
    (∀ s : List Char,
      numAssignUniform "timeout: int = ".toList
          (natDigits (increment_timeout_orig s)) s = true →
        increment_timeout_rollback s (increment_timeout_apply s s) = s) ∧
    (∀ s : List Char,
      numAssignUniform "max_retries: int = ".toList
          (natDigits (add_retry_orig s)) s = true →
        add_retry_rollback s (add_retry_apply s s) = s) ∧
    (∀ s : List Char, ¬ ("sleep 1.0".toList <:+: s) →
      extend_wait_rollback (extend_wait_apply s) = s) ∧
    (∀ s : List Char, ¬ ("sleep 3.0".toList <:+: s) →
      add_section_wait_rollback (add_section_wait_apply s) = s) ∧
    (∀ L fmt timeStr s : List Char,
      (L = "TIME_FORMATS = [".toList ∨ L = "DATE_FORMATS_NO_YEAR = [".toList ∨
        L = "DATE_FORMATS_WITH_YEAR = [".toList) →
      (∀ c ∈ fmt, L.head? ≠ some c) →
      (∀ c ∈ timeStr, c ≠ '\n') →
      (∀ k, k < s.length → L <+: s.drop k →
        ((s.drop k).drop L.length).head? = none ∨
        ((s.drop k).drop L.length).head? = some '\n') →
      ¬ (healMarker fmt <:+: s) →
      add_date_format_rollback fmt (add_date_format_apply L fmt timeStr s) = s) ∧
    (∀ s : List Char, ¬ ("Rese[tst]*".toList <:+: s) →
      relax_section_regex_rollback (relax_section_regex_apply s) = s) ∧
    (∀ s : List Char, ¬ ("(\\d+)\\s*%\\s*used".toList <:+: s) →
      broaden_percentage_regex_rollback (broaden_percentage_regex_apply s) = s) ∧
    (∀ s : List Char, ¬ ("hours > 7:".toList <:+: s) →
      ¬ ("hours > 170:".toList <:+: s) →
      increase_validation_buffer_rollback (increase_validation_buffer_apply s) = s) := by
  refine ⟨?_, ?_, ?_, ?_, ?_, ?_, ?_, ?_⟩
  · intro s huni
    unfold increment_timeout_rollback increment_timeout_apply
    refine numAssign_roundtrip "timeout: int = ".toList
      (natDigits (increment_timeout_orig s)) (natDigits (increment_timeout_orig s + 5))
      (by decide) (natDigits_ne_nil _) (natDigits_ne_nil _) (natDigits_digits _) ?_
      s.length s le_rfl huni
    intro c hc
    rw [show ("timeout: int = ".toList).head? = some 't' from rfl] at hc
    have hct : 't' = c := Option.some_inj.mp hc
    rw [← hct]
    decide
  · intro s huni
    unfold add_retry_rollback add_retry_apply
    refine numAssign_roundtrip "max_retries: int = ".toList
      (natDigits (add_retry_orig s)) (natDigits (add_retry_orig s + 1))
      (by decide) (natDigits_ne_nil _) (natDigits_ne_nil _) (natDigits_digits _) ?_
      s.length s le_rfl huni
    intro c hc
    rw [show ("max_retries: int = ".toList).head? = some 'm' from rfl] at hc
    have hct : 'm' = c := Option.some_inj.mp hc
    rw [← hct]
    decide
  · intro s h
    exact extend_wait_roundtrip s h
  · intro s h
    unfold add_section_wait_rollback add_section_wait_apply
    exact pyReplace_roundtrip "sleep 2.0".toList "sleep 3.0".toList
      (by decide) (by decide) (by decide) s h
  · intro L fmt timeStr s hLcase hfmt hts hheads hnm
    rcases hLcase with hL | hL | hL <;> subst hL <;>
      exact add_date_format_roundtrip_of _ fmt timeStr s (by decide)
        (by decide) hfmt (by decide) (by decide) hts hheads hnm
  · intro s h
    unfold relax_section_regex_rollback relax_section_regex_apply
    exact pyReplace_roundtrip "Rese[ts]*".toList "Rese[tst]*".toList
      (by decide) (by decide) (by decide) s h
  · intro s h
    unfold broaden_percentage_regex_rollback broaden_percentage_regex_apply
    exact pyReplace_roundtrip "(\\d+)%\\s*used".toList "(\\d+)\\s*%\\s*used".toList
      (by decide) (by decide) (by decide) s h
  · intro s h1 h2
    unfold increase_validation_buffer_rollback increase_validation_buffer_apply
    exact increase_validation_buffer_aux s.length s le_rfl h1 h2

/-- The catalog round trip evaluated at concrete source fragments, one
per strategy, with every freshness condition checked by computation. -/
theorem fix_catalog_roundtrip_witness :
    increment_timeout_rollback "timeout: int = 20,".toList
      (increment_timeout_apply "timeout: int = 20,".toList "timeout: int = 20,".toList) =
      "timeout: int = 20,".toList ∧
    add_retry_rollback "max_retries: int = 3)".toList
      (add_retry_apply "max_retries: int = 3)".toList "max_retries: int = 3)".toList) =
      "max_retries: int = 3)".toList ∧
    extend_wait_rollback (extend_wait_apply "expect: sleep 0.5; send".toList) =
      "expect: sleep 0.5; send".toList ∧
    add_section_wait_rollback (add_section_wait_apply "sleep 2.0 twice sleep 2.0".toList) =
      "sleep 2.0 twice sleep 2.0".toList ∧
    add_date_format_rollback "%I%p".toList
      (add_date_format_apply "TIME_FORMATS = [".toList "%I%p".toList "3pm".toList
        "TIME_FORMATS = [\n]".toList) = "TIME_FORMATS = [\n]".toList ∧
    relax_section_regex_rollback (relax_section_regex_apply "r\"Rese[ts]*\"".toList) =
      "r\"Rese[ts]*\"".toList ∧
    broaden_percentage_regex_rollback
      (broaden_percentage_regex_apply "pat = r\"(\\d+)%\\s*used\"".toList) =
      "pat = r\"(\\d+)%\\s*used\"".toList ∧
    increase_validation_buffer_rollback
      (increase_validation_buffer_apply "if hours > 6:\nif hours > 169:".toList) =
      "if hours > 6:\nif hours > 169:".toList := by
  obtain ⟨h1, h2, h3, h4, h5, h6, h7, h8⟩ := fix_catalog_roundtrip
  exact ⟨h1 _ (by decide), h2 _ (by decide), h3 _ (by decide), h4 _ (by decide),
    h5 _ _ _ _ (Or.inl rfl) (by decide) (by decide) (by decide) (by decide),
    h6 _ (by decide), h7 _ (by decide), h8 _ (by decide) (by decide)⟩
